import Mathlib

/-!
Verification of the pyrogram update dispatcher (`pyrogram/dispatcher.py`)
against its natural-language specification.

The Python code is shallowly embedded: the dispatcher's registry state
(`Dispatcher.__init__`) becomes an explicit structure, its mutating
operations (`add_handler`, `remove_handler`, `remove_error_handler`,
`stop`) become pure state-transformers returning `Option PyExn ×
DispatcherState` (an exception plus the state at the point the exception
escaped, since Python mutations performed before a raise persist), and one
iteration of `Dispatcher.handler_worker` becomes a pure function producing
a trace of observable events (handler invocations, error-handler
invocations, log calls).  Handlers are modelled by their observable
behaviour on the event being dispatched: the result of `handler.check`
and the result of `handler.callback` are data fields.  The per-worker
lock discipline is modelled separately as a labelled transition system.
-/

namespace Dispatcher

/-- Python exception classes that occur in the dispatcher.  `stopProp` and
`contProp` are `pyrogram.StopPropagation` / `pyrogram.ContinuePropagation`;
`exn k` is an ordinary user exception of kind `k` (exception classes are
modelled as natural-number kinds, `isinstance` as membership of the kind in
a filter list); `attrError` is `AttributeError` (raised when an attribute
that does not exist is accessed, e.g. `None.callback`); `valueError` is
`ValueError` (raised by `list.remove` / `list.index` on a missing element,
and by `remove_handler` for a missing group). -/
inductive PyExn
  | stopProp
  | contProp
  | exn (k : Nat)
  | attrError
  | valueError
deriving DecidableEq, Repr

/-- The handler variants registered with the dispatcher.  Each variant
corresponds to one handler class of `pyrogram.handlers`; `rawUpdate` is
`RawUpdateHandler` and `error` is `ErrorHandler`. -/
inductive HKind
  | message
  | editedMessage
  | deletedMessages
  | callbackQuery
  | userStatus
  | inlineQuery
  | poll
  | chosenInlineResult
  | chatMemberUpdated
  | chatJoinRequest
  | rawUpdate
  | error
deriving DecidableEq, Repr

/-- Result of `handler.check(client, parsed_update)` on the event being
dispatched: it returns a boolean or throws. -/
inductive CheckRes
  | ok (b : Bool)
  | exnCheck
deriving DecidableEq, Repr

/-- A registered handler, modelled by its registration data and by its
observable behaviour on the event under consideration.  `hid` is the
object identity (Python compares handlers with `==`, default identity);
`errors` is the `ErrorHandler.errors` filter set (`none` = global error
handler, as in `error_handler.py` where `errors=None` means global);
`isCoro` is `inspect.iscoroutinefunction(handler.callback)`;
`checkRes` is what `handler.check` does on this event; `callbackRes` is
what `handler.callback` does when invoked (`none` = returns normally,
`some e` = raises `e`). -/
structure Handler where
  hid : Nat
  kind : HKind
  errors : Option (List Nat) := none
  isCoro : Bool := false
  checkRes : CheckRes := CheckRes.ok true
  callbackRes : Option PyExn := none
deriving DecidableEq, Repr

/-- The raw-update tags dispatched by the classifier table built in
`Dispatcher.__init__` (`self.update_parsers`); `unknown n` stands for any
update type that has no entry in the table. -/
inductive Tag
  | updateNewMessage
  | updateNewChannelMessage
  | updateNewScheduledMessage
  | updateEditMessage
  | updateEditChannelMessage
  | updateDeleteMessages
  | updateDeleteChannelMessages
  | updateBotCallbackQuery
  | updateInlineBotCallbackQuery
  | updateUserStatus
  | updateBotInlineQuery
  | updateMessagePoll
  | updateBotInlineSend
  | updateChatParticipant
  | updateChannelParticipant
  | updateBotChatInviteRequester
  | unknown (n : Nat)
deriving DecidableEq, Repr

/-- The event classifier: `self.update_parsers.get(type(update), None)`
combined with the handler class each parser function returns as the second
component of its result.  `none` models the code path
`(None, type(None))` taken when the tag has no table entry.  It is a total
function: lookup never fails. -/
def classify : Tag → Option HKind
  | Tag.updateNewMessage => some HKind.message
  | Tag.updateNewChannelMessage => some HKind.message
  | Tag.updateNewScheduledMessage => some HKind.message
  | Tag.updateEditMessage => some HKind.editedMessage
  | Tag.updateEditChannelMessage => some HKind.editedMessage
  | Tag.updateDeleteMessages => some HKind.deletedMessages
  | Tag.updateDeleteChannelMessages => some HKind.deletedMessages
  | Tag.updateBotCallbackQuery => some HKind.callbackQuery
  | Tag.updateInlineBotCallbackQuery => some HKind.callbackQuery
  | Tag.updateUserStatus => some HKind.userStatus
  | Tag.updateBotInlineQuery => some HKind.inlineQuery
  | Tag.updateMessagePoll => some HKind.poll
  | Tag.updateBotInlineSend => some HKind.chosenInlineResult
  | Tag.updateChatParticipant => some HKind.chatMemberUpdated
  | Tag.updateChannelParticipant => some HKind.chatMemberUpdated
  | Tag.updateBotChatInviteRequester => some HKind.chatJoinRequest
  | Tag.unknown _ => none

/-- The dispatcher's registry state, as created in `Dispatcher.__init__`:
`self.groups` (an ordered mapping from integer priority to handler list),
`self.error_handlers` and the parallel `self.error_handler_coros`, and the
global error-handler slot with its coroutine flag. -/
structure DispatcherState where
  groups : List (Int × List Handler)
  error_handlers : List Handler
  error_handler_coros : List Bool
  global_error_handler : Option Handler
  global_error_handler_coro : Option Bool
deriving DecidableEq, Repr

/-- The state built by `Dispatcher.__init__`: everything empty. -/
def initialState : DispatcherState :=
  { groups := []
    error_handlers := []
    error_handler_coros := []
    global_error_handler := none
    global_error_handler_coro := none }

/-- Key lookup in the ordered group mapping (`group in self.groups`,
`self.groups[group]`). -/
def lookupG (g : Int) : List (Int × List Handler) → Option (List Handler)
  | [] => none
  | p :: rest => if p.1 == g then some p.2 else lookupG g rest

/-- Membership test `group in self.groups`. -/
def hasGroup (st : DispatcherState) (g : Int) : Bool :=
  (lookupG g st.groups).isSome

/-- The handler list of a group, `[]` when the group does not exist. -/
def groupList (st : DispatcherState) (g : Int) : List Handler :=
  (lookupG g st.groups).getD []

/-- One step of the insertion sort embedding
`OrderedDict(sorted(self.groups.items()))`: place a pair before the first
entry with a key not smaller than its own. -/
def insertPair (p : Int × List Handler) :
    List (Int × List Handler) → List (Int × List Handler)
  | [] => [p]
  | q :: rest => if p.1 ≤ q.1 then p :: q :: rest else q :: insertPair p rest

/-- The call `sorted(self.groups.items())`, sorting the mapping by key. -/
def sortGroups : List (Int × List Handler) → List (Int × List Handler)
  | [] => []
  | p :: rest => insertPair p (sortGroups rest)

/-- The call `self.groups[group].append(handler)`. -/
def appendToGroup (g : Int) (h : Handler) (l : List (Int × List Handler)) :
    List (Int × List Handler) :=
  l.map (fun p => if p.1 == g then (p.1, p.2 ++ [h]) else p)

/-- Embedding of `Dispatcher.add_handler` (the body of its inner `fn`): create the
group and re-sort the keys if the group is new; if the handler is an
`ErrorHandler`, update the global slot (when `errors is None`) or append
to the scoped list and the parallel coroutine-flag list; finally append
the handler to its group (the code appends error handlers to the group
too). -/
def addHandler (st : DispatcherState) (h : Handler) (group : Int) :
    DispatcherState :=
  let gs := if hasGroup st group then st.groups
            else sortGroups (st.groups ++ [(group, [])])
  let st1 :=
    if h.kind == HKind.error then
      match h.errors with
      | none =>
        { st with groups := gs
                  global_error_handler := some h
                  global_error_handler_coro := some h.isCoro }
      | some _ =>
        { st with groups := gs
                  error_handlers := st.error_handlers ++ [h]
                  error_handler_coros := st.error_handler_coros ++ [h.isCoro] }
    else { st with groups := gs }
  { st1 with groups := appendToGroup group h st1.groups }

/-- Python `list.remove`: remove the first occurrence (callers check membership
first; on a missing element the Python call raises before mutating). -/
def removeFirst (h : Handler) : List Handler → List Handler
  | [] => []
  | x :: rest => if x == h then rest else x :: removeFirst h rest

/-- Embedding of `Dispatcher.remove_handler` (the body of its inner `fn`): raise
`ValueError` if the group does not exist; `self.groups[group].remove(h)`
raises `ValueError` without mutating when the handler is absent, and
otherwise removes the first matching instance from that group only.  The
result pairs the escaped exception (if any) with the state after the
call. -/
def removeHandler (st : DispatcherState) (h : Handler) (group : Int) :
    Option PyExn × DispatcherState :=
  match lookupG group st.groups with
  | none => (some PyExn.valueError, st)
  | some hs =>
    if h ∈ hs then
      (none, { st with
        groups := st.groups.map
          (fun p => if p.1 == group then (p.1, removeFirst h p.2) else p) })
    else (some PyExn.valueError, st)

/-- The test `error in err.errors`: membership of the error kind in a scoped
handler's filter set (`False` on a global handler's `None` filter, which
cannot occur in the scoped list). -/
def errContains (e : Nat) (h : Handler) : Bool :=
  match h.errors with
  | some ks => ks.contains e
  | none => false

/-- Embedding of `Dispatcher.remove_error_handler` (the body of its inner `fn`).  Three
modes, exactly as the code behaves: with a handler argument,
`self.error_handlers.index(handler)` raises `ValueError` when absent;
otherwise the handler is popped from `self.error_handlers` and then the
access `self.error_handlers_coros` raises `AttributeError` because
`__init__` defines the attribute as `error_handler_coros` — the coroutine
flag is never popped.  With an error-kind argument, the loop pops the
first scoped handler whose filter set contains the kind and then the
access `self.error_handlers_coro` likewise raises `AttributeError`; when
no handler matches, the loop completes without effect.  With no argument,
the global slot and its coroutine flag are cleared. -/
def removeErrorHandler (st : DispatcherState) (handler : Option Handler)
    (error : Option Nat) : Option PyExn × DispatcherState :=
  match handler with
  | some h =>
    match st.error_handlers.findIdx? (fun x => x == h) with
    | some i =>
      (some PyExn.attrError,
        { st with error_handlers := st.error_handlers.eraseIdx i })
    | none => (some PyExn.valueError, st)
  | none =>
    match error with
    | some e =>
      match st.error_handlers.findIdx? (errContains e) with
      | some i =>
        (some PyExn.attrError,
          { st with error_handlers := st.error_handlers.eraseIdx i })
      | none => (none, st)
    | none =>
      (none, { st with global_error_handler := none
                       global_error_handler_coro := none })

/-- The registry effect of `Dispatcher.stop`: a no-op when the client is
configured with `no_updates`; otherwise the worker tasks are joined and
`self.groups.clear()` runs.  The scoped error-handler list, its
coroutine-flag list and the global slot are not touched by `stop`. -/
def stopDispatcher (st : DispatcherState) (no_updates : Bool) :
    DispatcherState :=
  if no_updates then st else { st with groups := [] }

/-- Fold of `add_handler` calls from the freshly constructed dispatcher. -/
def buildState (ops : List (Handler × Int)) : DispatcherState :=
  ops.foldl (fun s q => addHandler s q.1 q.2) initialState

/-- The argument tuple a handler callback is invoked with:
`(parsed_update,)` for an ordinary handler, `(update, users, chats)` for a
`RawUpdateHandler`.  Entity maps are modelled by opaque numeric
identifiers. -/
inductive Args
  | parsedArg (p : Option Nat)
  | rawArg (t : Tag) (users chats : Nat)
deriving DecidableEq, Repr

/-- Observable events of one `handler_worker` iteration, in program
order: entering a group of the `for group in self.groups.values()` loop,
a handler-callback invocation, the `log.error` for a throwing
`handler.check`, a scoped error-handler invocation (with the coroutine
flag the code looks up), the global error-handler invocation, the
`log.error` of the error-routing `else` branch, and the `log.error` of
the outer per-event guard. -/
inductive Ev
  | enterGroup (gi : Nat) (gk : Int)
  | invoke (gi : Nat) (gk : Int) (h : Handler) (a : Args)
  | checkLogged (gi : Nat) (gk : Int) (h : Handler)
  | scopedInvoked (h : Handler) (coro : Bool) (e : PyExn) (a : Args)
  | globalInvoked (h : Handler) (coro : Bool) (e : PyExn) (a : Args)
  | routeLogged (e : PyExn)
  | outerLogged (e : PyExn)
deriving DecidableEq, Repr

/-- The coroutine flag the routing code looks up:
`self.error_handler_coros[self.error_handlers.index(error_handler)]`. -/
def coroFlagOf (ehs : List Handler) (coros : List Bool) (h : Handler) :
    Bool :=
  coros.getD (ehs.indexOf h) false

/-- The scan over `self.error_handlers` in the `except Exception` block of
`handler_worker`: each scoped handler whose filter set matches the thrown
exception is invoked (`executed = True`) and the loop continues; an
exception raised by the error-handler callback itself escapes.  Returns
the emitted events, the final `executed` flag and the escaped
exception. -/
def routeScan (ehs : List Handler) (coros : List Bool) (e : PyExn)
    (a : Args) : List Handler → Bool → List Ev × Bool × Option PyExn
  | [], executed => ([], executed, none)
  | h :: rest, executed =>
    if (match e, h.errors with
        | PyExn.exn k, some ks => ks.contains k
        | _, _ => false) then
      match h.callbackRes with
      | none =>
        let r := routeScan ehs coros e a rest true
        (Ev.scopedInvoked h (coroFlagOf ehs coros h) e a :: r.1, r.2.1, r.2.2)
      | some ex =>
        ([Ev.scopedInvoked h (coroFlagOf ehs coros h) e a], true, some ex)
    else
      routeScan ehs coros e a rest executed

/-- The whole error-routing block of `handler_worker` (lines 295-327):
after the scoped scan, `if not executed or self.global_error_handler:`
invokes `self.global_error_handler.callback` — when the global slot is
`None` this attribute access raises `AttributeError`, which escapes;
otherwise (`executed` and no global handler) the original exception is
logged. -/
def routeError (ehs : List Handler) (coros : List Bool)
    (glob : Option Handler) (globCoro : Option Bool) (e : PyExn)
    (a : Args) : List Ev × Option PyExn :=
  let r := routeScan ehs coros e a ehs false
  match r.2.2 with
  | some ex => (r.1, some ex)
  | none =>
    if !r.2.1 || glob.isSome then
      match glob with
      | some g =>
        match g.callbackRes with
        | none =>
          (r.1 ++ [Ev.globalInvoked g (globCoro.getD false) e a], none)
        | some ex =>
          (r.1 ++ [Ev.globalInvoked g (globCoro.getD false) e a], some ex)
      | none => (r.1, some PyExn.attrError)
    else
      (r.1 ++ [Ev.routeLogged e], none)

/-- The invocation `try`-block of `handler_worker` for one selected
handler: a normal return breaks out of the group, `StopPropagation` is
re-raised, `ContinuePropagation` continues with the rest of the group
(whose scan result is `restRes`), and any other exception is routed
through the error-routing block and then the loop breaks (unless routing
itself let an exception escape). -/
def invokeOutcome (st : DispatcherState) (gi : Nat) (gk : Int)
    (h : Handler) (a : Args) (restRes : List Ev × Option PyExn) :
    List Ev × Option PyExn :=
  match h.callbackRes with
  | none => ([Ev.invoke gi gk h a], none)
  | some PyExn.stopProp => ([Ev.invoke gi gk h a], some PyExn.stopProp)
  | some PyExn.contProp => (Ev.invoke gi gk h a :: restRes.1, restRes.2)
  | some e =>
    let r := routeError st.error_handlers st.error_handler_coros
      st.global_error_handler st.global_error_handler_coro e a
    (Ev.invoke gi gk h a :: r.1, r.2)

/-- The inner `for handler in group:` loop of `handler_worker`: a handler
whose class matches the parser's handler type runs `handler.check` (a
throwing check is logged and treated as non-match, scanning continues); on
a true check it is invoked with the parsed update; otherwise a
`RawUpdateHandler` is invoked unconditionally with the raw update and the
entity maps; all other handlers are skipped. -/
def scanGroup (st : DispatcherState) (gi : Nat) (gk : Int)
    (htype : Option HKind) (parsed : Option Nat) (t : Tag)
    (users chats : Nat) : List Handler → List Ev × Option PyExn
  | [] => ([], none)
  | h :: rest =>
    if htype = some h.kind then
      match h.checkRes with
      | CheckRes.exnCheck =>
        let r := scanGroup st gi gk htype parsed t users chats rest
        (Ev.checkLogged gi gk h :: r.1, r.2)
      | CheckRes.ok b =>
        if b then
          invokeOutcome st gi gk h (Args.parsedArg parsed)
            (scanGroup st gi gk htype parsed t users chats rest)
        else
          scanGroup st gi gk htype parsed t users chats rest
    else if h.kind = HKind.rawUpdate then
      invokeOutcome st gi gk h (Args.rawArg t users chats)
        (scanGroup st gi gk htype parsed t users chats rest)
    else
      scanGroup st gi gk htype parsed t users chats rest

/-- The outer `for group in self.groups.values():` loop: groups are
visited in mapping order (`gi` is the visit index); an exception escaping
a group's scan aborts the remaining groups. -/
def scanGroups (st : DispatcherState) (htype : Option HKind)
    (parsed : Option Nat) (t : Tag) (users chats : Nat) :
    Nat → List (Int × List Handler) → List Ev × Option PyExn
  | _, [] => ([], none)
  | gi, (gk, hs) :: rest =>
    let r := scanGroup st gi gk htype parsed t users chats hs
    match r.2 with
    | some e => (Ev.enterGroup gi gk :: r.1, some e)
    | none =>
      let r2 := scanGroups st htype parsed t users chats (gi + 1) rest
      (Ev.enterGroup gi gk :: (r.1 ++ r2.1), r2.2)

/-- One full `handler_worker` iteration on a dequeued packet
`(update, users, chats)`: classify the tag, produce the parsed update
(`none` when no parser matched; `p` stands for the opaque object an
existing parser returns), scan the groups under the worker's lock, and
apply the outer guards: `except StopPropagation: pass` and
`except Exception as e: log.error(e)`. -/
def dispatchEvent (st : DispatcherState) (t : Tag) (p users chats : Nat) :
    List Ev :=
  let htype := classify t
  let parsed := htype.map (fun _ => p)
  let r := scanGroups st htype parsed t users chats 0 st.groups
  match r.2 with
  | none => r.1
  | some PyExn.stopProp => r.1
  | some e => r.1 ++ [Ev.outerLogged e]

/-- A queue packet: tag, opaque parsed payload, and the two entity maps. -/
abbrev Packet := Tag × Nat × Nat × Nat

/-- The worker's `while True:` loop over the real packets it dequeues (a
sentinel terminates the loop; registry state does not change between
iterations unless a mutation intervenes, which is excluded by the lock
barrier). -/
def processPackets (st : DispatcherState) : List Packet → List Ev
  | [] => []
  | q :: rest =>
    dispatchEvent st q.1 q.2.1 q.2.2.1 q.2.2.2 ++ processPackets st rest

/-! ### Trace observations -/

/-- Is the event a group-handler invocation? -/
def isInvokeEv : Ev → Bool
  | Ev.invoke _ _ _ _ => true
  | _ => false

/-- The handler of a group-handler invocation event. -/
def invokeOf : Ev → Option Handler
  | Ev.invoke _ _ h _ => some h
  | _ => none

/-- The handler of an invocation event belonging to the group visited at
index `gi`. -/
def invokeAtOf (gi : Nat) : Ev → Option Handler
  | Ev.invoke gj _ h _ => if gj = gi then some h else none
  | _ => none

/-- All handlers invoked in a trace, in order. -/
def invokedHandlers (tr : List Ev) : List Handler :=
  tr.filterMap invokeOf

/-- The handlers invoked from the group visited at index `gi`, in
order. -/
def invokedAt (gi : Nat) (tr : List Ev) : List Handler :=
  tr.filterMap (invokeAtOf gi)

/-- The group keys visited by the dispatch loop, in visit order. -/
def enterKeys (tr : List Ev) : List Int :=
  tr.filterMap (fun ev => match ev with
    | Ev.enterGroup _ gk => some gk
    | _ => none)

/-- Does the dispatch loop select this handler for invocation?  Per the
code: its class equals the parser's handler type and its `check` returns
true, or — failing the class test — it is a `RawUpdateHandler`, selected
unconditionally. -/
def selectsB (htype : Option HKind) (h : Handler) : Bool :=
  if htype = some h.kind then h.checkRes == CheckRes.ok true
  else h.kind == HKind.rawUpdate

/-- The handlers the group scan invokes out of the selected ones: the
first selected handler, and after any handler that raises
`ContinuePropagation` also the next selected one. -/
def contTake : List Handler → List Handler
  | [] => []
  | h :: rest =>
    if h.callbackRes == some PyExn.contProp then h :: contTake rest
    else [h]

/-- Is the event an invocation of a handler that raises
`StopPropagation`? -/
def isStopInvoke : Ev → Bool
  | Ev.invoke _ _ h _ => h.callbackRes == some PyExn.stopProp
  | _ => false

/-- Does the trace contain a group-handler invocation? -/
def hasInvoke : List Ev → Bool
  | [] => false
  | ev :: tr => isInvokeEv ev || hasInvoke tr

/-- Does the trace contain a stop-propagation invocation? -/
def hasStopInvoke : List Ev → Bool
  | [] => false
  | ev :: tr => isStopInvoke ev || hasStopInvoke tr

/-- No group-handler invocation follows a stop-propagation invocation in
the trace. -/
def stopEndsDispatch : List Ev → Bool
  | [] => true
  | ev :: rest =>
    if isStopInvoke ev then !hasInvoke rest else stopEndsDispatch rest

/-- For claim C5: an invocation event is admissible for an
unrecognized-tag dispatch only if it invokes a raw-update handler with the
raw update and the two entity maps; non-invocation events are
unconstrained. -/
def rawOnly (t : Tag) (users chats : Nat) (ev : Ev) : Bool :=
  match ev with
  | Ev.invoke _ _ h a =>
    h.kind == HKind.rawUpdate && a == Args.rawArg t users chats
  | _ => true

/-! ### Concrete states used by witnesses and counterexamples -/

/-- A plain message handler that returns normally. -/
def hOkM : Handler := { hid := 1, kind := HKind.message }

/-- A message handler whose callback raises a user exception of kind 0. -/
def hThrow : Handler :=
  { hid := 2, kind := HKind.message, callbackRes := some (PyExn.exn 0) }

/-- A second plain message handler. -/
def hOkM2 : Handler := { hid := 6, kind := HKind.message }

/-- A scoped error handler filtering exception kind 0. -/
def hScoped : Handler :=
  { hid := 10, kind := HKind.error, errors := some [0] }

/-- A global error handler (`errors is None`) with a coroutine callback. -/
def hGlob : Handler :=
  { hid := 11, kind := HKind.error, errors := none, isCoro := true }

/-- State for claim C3's failing input: a throwing handler in group 0, an
ordinary handler in group 1, no scoped error handlers, no global error
handler. -/
def stBug : DispatcherState :=
  { groups := [(0, [hThrow]), (1, [hOkM])]
    error_handlers := []
    error_handler_coros := []
    global_error_handler := none
    global_error_handler_coro := none }

/-- State for claim C6's failing input: one registered scoped error
handler with its coroutine flag, plus a global error handler. -/
def stC6 : DispatcherState :=
  { groups := []
    error_handlers := [hScoped]
    error_handler_coros := [false]
    global_error_handler := some hGlob
    global_error_handler_coro := some true }

/-- State for claim C8's counterexample: a populated registry. -/
def stC8 : DispatcherState :=
  { groups := [(0, [hOkM])]
    error_handlers := [hScoped]
    error_handler_coros := [false]
    global_error_handler := some hGlob
    global_error_handler_coro := some true }

/-- A one-group state used by witnesses. -/
def stW : DispatcherState :=
  { groups := [(0, [hOkM, hOkM2])]
    error_handlers := []
    error_handler_coros := []
    global_error_handler := none
    global_error_handler_coro := none }

/-- The `add_handler` sequence of the spec's example: groups 0, 5, 5, 2. -/
def exOps : List (Handler × Int) :=
  [(hOkM, 0), (hOkM2, 5), (hThrow, 5), (hOkM, 2)]

/-! ### The per-worker lock barrier (`start` / `add_handler` /
`handler_worker`) as a labelled transition system

`Dispatcher.start` creates one `asyncio.Lock` per worker and hands worker
`i` its own lock (`self.locks_list[-1]`).  Each registry mutation
(`add_handler`, `remove_handler`, `remove_error_handler`) runs
`for lock in self.locks_list: await lock.acquire()` — acquiring all `n`
locks in index order — then mutates, then releases them all; a worker
wraps its group iteration in `async with lock` on its own lock only.  The
system below models exactly these acquire/release programs: `n` workers,
`m` concurrent mutation tasks, and one binary lock per worker. -/

/-- Who can hold a lock: worker `i` (its own lock) or mutation task `j`. -/
inductive LockActor (n m : Nat)
  | worker (i : Fin n)
  | mutator (j : Fin m)
deriving DecidableEq

/-- Phase of a worker: outside or inside its `async with lock` dispatch
block. -/
inductive WPhase
  | idle
  | dispatching
deriving DecidableEq

/-- Phase of a mutation task: not started / inside the acquire loop
having acquired the locks with index below `k` / holding all locks and
mutating the registry / inside the release loop having released the locks
with index below `k`. -/
inductive MPhase
  | idle
  | acquiring (k : Nat)
  | mutating
  | releasing (k : Nat)
deriving DecidableEq

/-- Global state of the lock system. -/
structure SysState (n m : Nat) where
  lockHeld : Fin n → Option (LockActor n m)
  wphase : Fin n → WPhase
  mphase : Fin m → MPhase

/-- All locks free, everybody idle. -/
def initState (n m : Nat) : SysState n m :=
  { lockHeld := fun _ => none
    wphase := fun _ => WPhase.idle
    mphase := fun _ => MPhase.idle }

/-- The interleaved small-step semantics of the workers' `async with
lock` blocks and the mutation tasks' acquire-all / release-all loops.  An
`asyncio.Lock` can only be acquired when free. -/
inductive LStep (n m : Nat) : SysState n m → SysState n m → Prop
  | workerAcquire (s s' : SysState n m) (i : Fin n)
      (hw : s.wphase i = WPhase.idle) (hl : s.lockHeld i = none)
      (e1 : s'.lockHeld =
        Function.update s.lockHeld i (some (LockActor.worker i)))
      (e2 : s'.wphase = Function.update s.wphase i WPhase.dispatching)
      (e3 : s'.mphase = s.mphase) : LStep n m s s'
  | workerRelease (s s' : SysState n m) (i : Fin n)
      (hw : s.wphase i = WPhase.dispatching)
      (e1 : s'.lockHeld = Function.update s.lockHeld i none)
      (e2 : s'.wphase = Function.update s.wphase i WPhase.idle)
      (e3 : s'.mphase = s.mphase) : LStep n m s s'
  | mutStart (s s' : SysState n m) (j : Fin m)
      (hm : s.mphase j = MPhase.idle)
      (e1 : s'.lockHeld = s.lockHeld) (e2 : s'.wphase = s.wphase)
      (e3 : s'.mphase = Function.update s.mphase j (MPhase.acquiring 0)) :
      LStep n m s s'
  | mutAcquire (s s' : SysState n m) (j : Fin m) (k : Nat)
      (hm : s.mphase j = MPhase.acquiring k) (hk : k < n)
      (hl : s.lockHeld ⟨k, hk⟩ = none)
      (e1 : s'.lockHeld =
        Function.update s.lockHeld ⟨k, hk⟩ (some (LockActor.mutator j)))
      (e2 : s'.wphase = s.wphase)
      (e3 : s'.mphase =
        Function.update s.mphase j (MPhase.acquiring (k + 1))) :
      LStep n m s s'
  | mutEnter (s s' : SysState n m) (j : Fin m)
      (hm : s.mphase j = MPhase.acquiring n)
      (e1 : s'.lockHeld = s.lockHeld) (e2 : s'.wphase = s.wphase)
      (e3 : s'.mphase = Function.update s.mphase j MPhase.mutating) :
      LStep n m s s'
  | mutExit (s s' : SysState n m) (j : Fin m)
      (hm : s.mphase j = MPhase.mutating)
      (e1 : s'.lockHeld = s.lockHeld) (e2 : s'.wphase = s.wphase)
      (e3 : s'.mphase = Function.update s.mphase j (MPhase.releasing 0)) :
      LStep n m s s'
  | mutRelease (s s' : SysState n m) (j : Fin m) (k : Nat)
      (hm : s.mphase j = MPhase.releasing k) (hk : k < n)
      (e1 : s'.lockHeld = Function.update s.lockHeld ⟨k, hk⟩ none)
      (e2 : s'.wphase = s.wphase)
      (e3 : s'.mphase =
        Function.update s.mphase j (MPhase.releasing (k + 1))) :
      LStep n m s s'
  | mutDone (s s' : SysState n m) (j : Fin m)
      (hm : s.mphase j = MPhase.releasing n)
      (e1 : s'.lockHeld = s.lockHeld) (e2 : s'.wphase = s.wphase)
      (e3 : s'.mphase = Function.update s.mphase j MPhase.idle) :
      LStep n m s s'

/-- States reachable from the initial state by interleaved steps. -/
inductive Reach (n m : Nat) : SysState n m → Prop
  | init : Reach n m (initState n m)
  | step {s s' : SysState n m} :
      Reach n m s → LStep n m s s' → Reach n m s'

/-- The inductive invariant of the lock system: a worker is dispatching
exactly while it holds its own lock; a lock is only ever held by the
worker it belongs to or by a mutation task; a mutation task in the
acquire loop at position `k` holds exactly the locks below `k`; a
mutating task holds every lock; a task in the release loop at position
`k` holds exactly the locks from `k` up; an idle task holds nothing. -/
def LInv {n m : Nat} (s : SysState n m) : Prop :=
  (∀ i : Fin n,
    s.wphase i = WPhase.dispatching ↔
      s.lockHeld i = some (LockActor.worker i))
  ∧ (∀ i i' : Fin n, s.lockHeld i = some (LockActor.worker i') → i' = i)
  ∧ (∀ j : Fin m, ∀ k : Nat, s.mphase j = MPhase.acquiring k →
      k ≤ n ∧ ∀ l : Fin n,
        (l.val < k ↔ s.lockHeld l = some (LockActor.mutator j)))
  ∧ (∀ j : Fin m, s.mphase j = MPhase.mutating →
      ∀ l : Fin n, s.lockHeld l = some (LockActor.mutator j))
  ∧ (∀ j : Fin m, ∀ k : Nat, s.mphase j = MPhase.releasing k →
      k ≤ n ∧ ∀ l : Fin n,
        (k ≤ l.val ↔ s.lockHeld l = some (LockActor.mutator j)))
  ∧ (∀ j : Fin m, s.mphase j = MPhase.idle →
      ∀ l : Fin n, s.lockHeld l ≠ some (LockActor.mutator j))

/-- Reachable state of the 1-worker 1-mutator system in which the
mutation task has acquired the single lock and entered its critical
section. -/
def csState : SysState 1 1 :=
  { lockHeld := fun _ => some (LockActor.mutator ⟨0, Nat.one_pos⟩)
    wphase := fun _ => WPhase.idle
    mphase := fun _ => MPhase.mutating }

/-- Intermediate state: the mutation task has entered its acquire loop. -/
def csState1 : SysState 1 1 :=
  { lockHeld := fun _ => none
    wphase := fun _ => WPhase.idle
    mphase := fun _ => MPhase.acquiring 0 }

/-- Intermediate state: the mutation task holds the lock, loop index 1. -/
def csState2 : SysState 1 1 :=
  { lockHeld := fun _ => some (LockActor.mutator ⟨0, Nat.one_pos⟩)
    wphase := fun _ => WPhase.idle
    mphase := fun _ => MPhase.acquiring 1 }

/-! ## Theorems -/

/-- Claim C3 (code_bug): per the spec, when a handler invocation throws
and neither any scoped error handler matches nor a global error handler
exists, the exception should be logged and the worker should continue;
the code instead evaluates `self.global_error_handler.callback` on
`None`, raising `AttributeError`, which aborts the dispatch of all
remaining groups and is logged by the outer per-event guard.  At the
failing input (`stBug`: a throwing handler in group 0, a second group
behind it, no error handlers registered) the trace shows the
`AttributeError` escaping to the outer guard, group 1 never visited, and
no `routeLogged` entry for the original exception. -/
theorem error_routing_crash_on_missing_global :
    routeError [] [] none none (PyExn.exn 0) (Args.parsedArg (some 7)) =
      ([], some PyExn.attrError)
    ∧ dispatchEvent stBug Tag.updateNewMessage 7 3 4 =
      [Ev.enterGroup 0 0, Ev.invoke 0 0 hThrow (Args.parsedArg (some 7)),
       Ev.outerLogged PyExn.attrError] := by
  decide

/-- Claim C6 (code_bug): the handler mode of `remove_error_handler` pops
the handler from `self.error_handlers` and then raises `AttributeError`
because the code reads the misspelled attribute `error_handlers_coros`
(`__init__` defines `error_handler_coros`) — the coroutine flag is never
removed; the error-kind mode likewise pops the first matching handler and
then crashes on the misspelled `error_handlers_coro`; only the
no-argument mode (clearing the global slot) behaves as specified. -/
theorem remove_error_handler_attribute_bug :
    removeErrorHandler stC6 (some hScoped) none =
      (some PyExn.attrError, { stC6 with error_handlers := [] })
    ∧ ({ stC6 with error_handlers := [] } : DispatcherState).error_handler_coros
        = [false]
    ∧ removeErrorHandler stC6 none (some 0) =
      (some PyExn.attrError, { stC6 with error_handlers := [] })
    ∧ removeErrorHandler stC6 none none =
      (none, { stC6 with global_error_handler := none
                         global_error_handler_coro := none }) := by
  decide

/-- Claim C7 (confirmed): a `remove_handler` call naming a group that
does not exist, or a group that does not contain the handler, raises
`ValueError` and leaves the whole registry state exactly unchanged. -/
theorem remove_handler_notfound_unchanged (st : DispatcherState)
    (h : Handler) (g : Int)
    (hc : h ∉ (lookupG g st.groups).getD []) :
    removeHandler st h g = (some PyExn.valueError, st) := by
  unfold removeHandler
  cases hl : lookupG g st.groups with
  | none => rfl
  | some hs =>
    rw [hl] at hc
    simp only [Option.getD_some] at hc
    simp [hc]

/-- Witness for C7: concrete instance — `stW`'s group 0 exists but does
not contain `hThrow`, and group 9 does not exist; both calls fail with
`ValueError` and return the state unchanged. -/
theorem remove_handler_notfound_unchanged_witness :
    (hThrow ∉ (lookupG 0 stW.groups).getD []
      ∧ removeHandler stW hThrow 0 = (some PyExn.valueError, stW))
    ∧ (hOkM ∉ (lookupG 9 stW.groups).getD []
      ∧ removeHandler stW hOkM 9 = (some PyExn.valueError, stW)) :=
  ⟨⟨by decide, remove_handler_notfound_unchanged stW hThrow 0 (by decide)⟩,
   ⟨by decide, remove_handler_notfound_unchanged stW hOkM 9 (by decide)⟩⟩

/-- Counterexample to claim C8 as stated: after `stop()` with updates
enabled, the scoped error-handler list (and the global slot) of `stC8`
is not cleared, refuting "the entire registry state … is cleared". -/
theorem stop_does_not_clear_error_state :
    ¬((stopDispatcher stC8 false).error_handlers = []
      ∧ (stopDispatcher stC8 false).global_error_handler = none) := by
  decide

/-- Claim C8 (corrected): after `stop()` completes with updates enabled,
the priority-to-group mapping is cleared, but the scoped error-handler
list, its coroutine-flag list, the global error-handler slot and its
coroutine flag all retain their values (only `self.groups.clear()` is
executed). -/
theorem stop_clears_groups_only (st : DispatcherState) :
    (stopDispatcher st false).groups = []
    ∧ (stopDispatcher st false).error_handlers = st.error_handlers
    ∧ (stopDispatcher st false).error_handler_coros = st.error_handler_coros
    ∧ (stopDispatcher st false).global_error_handler = st.global_error_handler
    ∧ (stopDispatcher st false).global_error_handler_coro
        = st.global_error_handler_coro :=
  ⟨rfl, rfl, rfl, rfl, rfl⟩

/-- Claim C10 (confirmed): removing an `ErrorHandler` through the
ordinary `remove_handler` path touches only the named priority group: the
scoped error-handler list, the parallel coroutine-flag list, the global
slot and its flag are unchanged — whether the call succeeds or raises —
and consequently error routing behaves exactly as before the removal. -/
theorem remove_handler_frames_error_routing (st : DispatcherState)
    (h : Handler) (g : Int) :
    (removeHandler st h g).2.error_handlers = st.error_handlers
    ∧ (removeHandler st h g).2.error_handler_coros = st.error_handler_coros
    ∧ (removeHandler st h g).2.global_error_handler
        = st.global_error_handler
    ∧ (removeHandler st h g).2.global_error_handler_coro
        = st.global_error_handler_coro
    ∧ ∀ (e : PyExn) (a : Args),
        routeError (removeHandler st h g).2.error_handlers
          (removeHandler st h g).2.error_handler_coros
          (removeHandler st h g).2.global_error_handler
          (removeHandler st h g).2.global_error_handler_coro e a
        = routeError st.error_handlers st.error_handler_coros
            st.global_error_handler st.global_error_handler_coro e a := by
  unfold removeHandler
  cases hl : lookupG g st.groups with
  | none => exact ⟨rfl, rfl, rfl, rfl, fun _ _ => rfl⟩
  | some hs =>
    by_cases hmem : h ∈ hs <;> simp [hmem]

/-- Error-routing events are never group-handler invocations, so they
satisfy any invocation-only constraint (helper for C5). -/
theorem routeScan_all_rawOnly (ehs : List Handler) (coros : List Bool)
    (e : PyExn) (a : Args) (t : Tag) (u c : Nat) :
    ∀ (hs : List Handler) (b : Bool),
      ((routeScan ehs coros e a hs b).1).all (rawOnly t u c) = true := by
  intro hs
  induction hs with
  | nil => intro b; rfl
  | cons h rest ih =>
    intro b
    simp only [routeScan]
    split
    · cases hcb : h.callbackRes with
      | none => simp [rawOnly, ih]
      | some ex => simp [rawOnly]
    · exact ih b

/-- The full error-routing block emits no group-handler invocation
(helper for C5). -/
theorem routeError_all_rawOnly (ehs : List Handler) (coros : List Bool)
    (glob : Option Handler) (globCoro : Option Bool) (e : PyExn) (a : Args)
    (t : Tag) (u c : Nat) :
    ((routeError ehs coros glob globCoro e a).1).all (rawOnly t u c)
      = true := by
  unfold routeError
  cases hsc : (routeScan ehs coros e a ehs false).2.2 with
  | some ex => simp [hsc, routeScan_all_rawOnly]
  | none =>
    cases hex : (routeScan ehs coros e a ehs false).2.1 with
    | false =>
      cases glob with
      | none => simp [hsc, hex, routeScan_all_rawOnly]
      | some g =>
        cases hcb : g.callbackRes <;>
          simp [hsc, hex, hcb, routeScan_all_rawOnly, List.all_append,
            rawOnly]
    | true =>
      cases glob with
      | none => simp [hsc, hex, routeScan_all_rawOnly, List.all_append,
          rawOnly]
      | some g =>
        cases hcb : g.callbackRes <;>
          simp [hsc, hex, hcb, routeScan_all_rawOnly, List.all_append,
            rawOnly]

/-- With no parser handler type, the group scan only invokes raw-update
handlers, always with the raw update and the entity maps (helper for
C5). -/
theorem scanGroup_none_rawOnly (st : DispatcherState) (gi : Nat) (gk : Int)
    (parsed : Option Nat) (t : Tag) (u c : Nat) :
    ∀ hs : List Handler,
      ((scanGroup st gi gk none parsed t u c hs).1).all (rawOnly t u c)
        = true := by
  intro hs
  induction hs with
  | nil => rfl
  | cons h rest ih =>
    simp only [scanGroup]
    rw [if_neg (by simp : ¬ ((none : Option HKind) = some h.kind))]
    by_cases hk : h.kind = HKind.rawUpdate
    · rw [if_pos hk]
      unfold invokeOutcome
      cases hcb : h.callbackRes with
      | none => simp [rawOnly, hk]
      | some ex =>
        cases ex <;>
          simp [rawOnly, hk, ih, routeError_all_rawOnly, List.all_append]
    · rw [if_neg hk]
      exact ih

/-- With no parser handler type, the whole group iteration only invokes
raw-update handlers with raw arguments (helper for C5). -/
theorem scanGroups_none_rawOnly (st : DispatcherState) (parsed : Option Nat)
    (t : Tag) (u c : Nat) :
    ∀ (gs : List (Int × List Handler)) (g0 : Nat),
      ((scanGroups st none parsed t u c g0 gs).1).all (rawOnly t u c)
        = true := by
  intro gs
  induction gs with
  | nil => intro g0; rfl
  | cons q rest ih =>
    intro g0
    obtain ⟨gk, hs⟩ := q
    simp only [scanGroups]
    cases hesc : (scanGroup st g0 gk none parsed t u c hs).2 with
    | some e =>
      simp [rawOnly, scanGroup_none_rawOnly st g0 gk parsed t u c hs]
    | none =>
      simp [rawOnly, List.all_append,
        scanGroup_none_rawOnly st g0 gk parsed t u c hs, ih]

/-- Every event the scoped error-handler scan emits is a scoped
invocation of the routed exception. -/
theorem routeScan_events (ehs : List Handler) (coros : List Bool)
    (e : PyExn) (a : Args) :
    ∀ (hs : List Handler) (b : Bool),
      ∀ ev ∈ (routeScan ehs coros e a hs b).1,
        ∃ h coro, ev = Ev.scopedInvoked h coro e a := by
  intro hs
  induction hs with
  | nil => intro b ev hev; simp [routeScan] at hev
  | cons h rest ih =>
    intro b ev hev
    simp only [routeScan] at hev
    split at hev
    · cases hcb : h.callbackRes <;> rw [hcb] at hev <;>
        simp only [List.mem_cons, List.mem_singleton] at hev
      · rcases hev with rfl | hev
        · exact ⟨h, _, rfl⟩
        · exact ih true ev hev
      · rcases hev with rfl | hev
        · exact ⟨h, _, rfl⟩
        · simp at hev
    · exact ih b ev hev

/-- Every event the error-routing block emits is a scoped invocation, the
global invocation, or the routing log entry — never a group-handler
invocation. -/
theorem routeError_events (ehs : List Handler) (coros : List Bool)
    (glob : Option Handler) (globCoro : Option Bool) (e : PyExn)
    (a : Args) :
    ∀ ev ∈ (routeError ehs coros glob globCoro e a).1,
      (∃ h coro, ev = Ev.scopedInvoked h coro e a)
      ∨ (∃ g coro, ev = Ev.globalInvoked g coro e a)
      ∨ ev = Ev.routeLogged e := by
  intro ev hev
  unfold routeError at hev
  cases hsc : (routeScan ehs coros e a ehs false).2.2 with
  | some ex =>
    simp only [hsc] at hev
    exact Or.inl (routeScan_events ehs coros e a ehs false ev hev)
  | none =>
    simp only [hsc] at hev
    split at hev
    · cases glob with
      | none =>
        exact Or.inl (routeScan_events ehs coros e a ehs false ev hev)
      | some g =>
        cases hcb : g.callbackRes <;> simp only [hcb] at hev <;>
          rw [List.mem_append] at hev <;>
          rcases hev with hev | hev
        · exact Or.inl (routeScan_events ehs coros e a ehs false ev hev)
        · rcases List.mem_singleton.mp hev with rfl
          exact Or.inr (Or.inl ⟨g, _, rfl⟩)
        · exact Or.inl (routeScan_events ehs coros e a ehs false ev hev)
        · rcases List.mem_singleton.mp hev with rfl
          exact Or.inr (Or.inl ⟨g, _, rfl⟩)
    · rw [List.mem_append] at hev
      rcases hev with hev | hev
      · exact Or.inl (routeScan_events ehs coros e a ehs false ev hev)
      · rcases List.mem_singleton.mp hev with rfl
        exact Or.inr (Or.inr rfl)

/-- Error routing invokes no group handler. -/
theorem routeError_invokedHandlers (ehs : List Handler) (coros : List Bool)
    (glob : Option Handler) (globCoro : Option Bool) (e : PyExn)
    (a : Args) :
    invokedHandlers (routeError ehs coros glob globCoro e a).1 = [] := by
  unfold invokedHandlers
  rw [List.filterMap_eq_nil_iff]
  intro ev hev
  rcases routeError_events ehs coros glob globCoro e a ev hev with
    ⟨h, coro, rfl⟩ | ⟨g, coro, rfl⟩ | rfl <;> rfl

/-- Error routing invokes no group handler (per-group form). -/
theorem routeError_invokedAt (gj : Nat) (ehs : List Handler)
    (coros : List Bool) (glob : Option Handler) (globCoro : Option Bool)
    (e : PyExn) (a : Args) :
    invokedAt gj (routeError ehs coros glob globCoro e a).1 = [] := by
  unfold invokedAt
  rw [List.filterMap_eq_nil_iff]
  intro ev hev
  rcases routeError_events ehs coros glob globCoro e a ev hev with
    ⟨h, coro, rfl⟩ | ⟨g, coro, rfl⟩ | rfl <;> rfl

/-- A group-handler invocation is recorded at the head of the invoked
list. -/
theorem invokedHandlers_cons_invoke (gi : Nat) (gk : Int) (h : Handler)
    (a : Args) (tr : List Ev) :
    invokedHandlers (Ev.invoke gi gk h a :: tr) = h :: invokedHandlers tr :=
  rfl

/-- The handlers invoked by the invocation block: the selected handler,
followed by the rest of the group scan exactly when it raised
`ContinuePropagation`. -/
theorem invokeOutcome_invokedHandlers (st : DispatcherState) (gi : Nat)
    (gk : Int) (h : Handler) (a : Args) (restRes : List Ev × Option PyExn) :
    invokedHandlers (invokeOutcome st gi gk h a restRes).1
      = if h.callbackRes == some PyExn.contProp
        then h :: invokedHandlers restRes.1 else [h] := by
  unfold invokeOutcome
  cases hcb : h.callbackRes with
  | none =>
    simp only [hcb]
    rw [if_neg (by simp)]
    rfl
  | some e =>
    cases e with
    | stopProp =>
      simp only [hcb]
      rw [if_neg (by simp)]
      rfl
    | contProp =>
      simp only [hcb]
      rw [if_pos (by simp)]
      rfl
    | exn k =>
      simp only [hcb]
      rw [invokedHandlers_cons_invoke, routeError_invokedHandlers,
        if_neg (by simp)]
    | attrError =>
      simp only [hcb]
      rw [invokedHandlers_cons_invoke, routeError_invokedHandlers,
        if_neg (by simp)]
    | valueError =>
      simp only [hcb]
      rw [invokedHandlers_cons_invoke, routeError_invokedHandlers,
        if_neg (by simp)]

/-- The group scan invokes exactly the handlers `contTake` selects from
the in-order selected handlers: the first selected one, continuing past a
handler only when it raised `ContinuePropagation` (core of C1). -/
theorem scanGroup_invokedHandlers (st : DispatcherState) (gi : Nat)
    (gk : Int) (htype : Option HKind) (parsed : Option Nat) (t : Tag)
    (u c : Nat) :
    ∀ hs : List Handler,
      invokedHandlers (scanGroup st gi gk htype parsed t u c hs).1
        = contTake (hs.filter (selectsB htype)) := by
  intro hs
  induction hs with
  | nil => rfl
  | cons h rest ih =>
    simp only [scanGroup]
    by_cases hm : htype = some h.kind
    · rw [if_pos hm]
      cases hcr : h.checkRes with
      | exnCheck =>
        have hsel : selectsB htype h = false := by
          simp [selectsB, hm, hcr]
        rw [List.filter_cons, hsel]
        rw [if_neg (by simp)]
        exact ih
      | ok b =>
        cases b with
        | false =>
          have hsel : selectsB htype h = false := by
            simp [selectsB, hm, hcr]
          rw [List.filter_cons, hsel, if_neg (by simp)]
          exact ih
        | true =>
          have hsel : selectsB htype h = true := by
            simp [selectsB, hm, hcr]
          simp only []
          rw [if_pos trivial, invokeOutcome_invokedHandlers, ih,
            List.filter_cons, hsel, if_pos rfl]
          simp only [contTake]
    · rw [if_neg hm]
      by_cases hk : h.kind = HKind.rawUpdate
      · rw [if_pos hk]
        have hsel : selectsB htype h = true := by
          unfold selectsB
          rw [if_neg hm, hk]
          rfl
        rw [invokeOutcome_invokedHandlers, ih, List.filter_cons, hsel,
          if_pos rfl]
        simp only [contTake]
      · rw [if_neg hk]
        have hsel : selectsB htype h = false := by
          simp [selectsB, hm, hk]
        rw [List.filter_cons, hsel, if_neg (by simp)]
        exact ih

/-- Appending traces concatenates per-group invoked lists. -/
theorem invokedAt_append (gj : Nat) (l1 l2 : List Ev) :
    invokedAt gj (l1 ++ l2) = invokedAt gj l1 ++ invokedAt gj l2 := by
  simp [invokedAt, List.filterMap_append]

/-- A non-invocation event contributes nothing to the per-group invoked
list. -/
theorem invokedAt_cons_none (gj : Nat) (ev : Ev) (tr : List Ev)
    (hne : invokeAtOf gj ev = none) :
    invokedAt gj (ev :: tr) = invokedAt gj tr := by
  simp only [invokedAt, List.filterMap_cons, hne]

/-- A non-invocation event contributes nothing to the invoked list. -/
theorem invokedHandlers_cons_none (ev : Ev) (tr : List Ev)
    (hne : invokeOf ev = none) :
    invokedHandlers (ev :: tr) = invokedHandlers tr := by
  simp only [invokedHandlers, List.filterMap_cons, hne]

/-- An invocation event contributes its handler exactly to its own
group's invoked list. -/
theorem invokedAt_cons_invoke (gj gx : Nat) (gk : Int) (h : Handler)
    (a : Args) (tr : List Ev) :
    invokedAt gj (Ev.invoke gx gk h a :: tr)
      = if gx = gj then h :: invokedAt gj tr else invokedAt gj tr := by
  by_cases hxy : gx = gj <;>
    simp [invokedAt, List.filterMap_cons, invokeAtOf, hxy]

/-- Every invocation event the group scan emits carries the scan's own
group index. -/
theorem scanGroup_events_index (st : DispatcherState) (gi : Nat) (gk : Int)
    (htype : Option HKind) (parsed : Option Nat) (t : Tag) (u c : Nat) :
    ∀ hs : List Handler,
      ∀ ev ∈ (scanGroup st gi gk htype parsed t u c hs).1,
        ∀ gj gk' h a, ev = Ev.invoke gj gk' h a → gj = gi := by
  intro hs
  induction hs with
  | nil => intro ev hev; simp [scanGroup] at hev
  | cons h rest ih =>
    intro ev hev gj gk' h' a' hevq
    have outcome : ∀ a0 : Args,
        ev ∈ (invokeOutcome st gi gk h a0
          (scanGroup st gi gk htype parsed t u c rest)).1 → gj = gi := by
      intro a0 hmem
      unfold invokeOutcome at hmem
      cases hcb : h.callbackRes with
      | none =>
        rw [hcb] at hmem
        rcases List.mem_singleton.mp hmem with rfl
        cases hevq
        rfl
      | some e =>
        cases e <;> simp only [hcb, List.mem_cons] at hmem
        case stopProp =>
          rcases hmem with rfl | hmem
          · cases hevq; rfl
          · simp at hmem
        case contProp =>
          rcases hmem with rfl | hmem
          · cases hevq; rfl
          · exact ih ev hmem gj gk' h' a' hevq
        all_goals {
          rcases hmem with rfl | hmem
          · cases hevq; rfl
          · rcases routeError_events _ _ _ _ _ _ ev hmem with
              ⟨x, y, rfl⟩ | ⟨x, y, rfl⟩ | rfl <;> cases hevq }
    simp only [scanGroup] at hev
    split at hev
    · split at hev
      · simp only [List.mem_cons] at hev
        rcases hev with rfl | hev
        · cases hevq
        · exact ih ev hev gj gk' h' a' hevq
      · split at hev
        · exact outcome (Args.parsedArg parsed) hev
        · exact ih ev hev gj gk' h' a' hevq
    · split at hev
      · exact outcome (Args.rawArg t u c) hev
      · exact ih ev hev gj gk' h' a' hevq

/-- The per-index invoked list of a trace whose invocation events all
carry index `gi`: it is the full invoked list at `gi` and empty
elsewhere. -/
theorem invokedAt_of_single_index (gi : Nat) (tr : List Ev)
    (hidx : ∀ ev ∈ tr, ∀ gj gk' h a, ev = Ev.invoke gj gk' h a → gj = gi)
    (gj : Nat) :
    invokedAt gj tr = if gj = gi then invokedHandlers tr else [] := by
  induction tr with
  | nil =>
    simp only [invokedAt, invokedHandlers, List.filterMap_nil]
    split <;> rfl
  | cons ev rest ih =>
    have hidxr : ∀ ev ∈ rest, ∀ gj gk' h a, ev = Ev.invoke gj gk' h a →
        gj = gi := fun e he => hidx e (List.mem_cons_of_mem ev he)
    cases ev with
    | invoke gx gk' h a =>
      have hgx : gx = gi :=
        hidx _ (List.mem_cons_self _ _) gx gk' h a rfl
      rw [invokedAt_cons_invoke, invokedHandlers_cons_invoke]
      by_cases hq : gj = gi
      · rw [if_pos (hgx.trans hq.symm), if_pos hq, ih hidxr, if_pos hq]
      · rw [if_neg (fun hh => hq (hh.symm.trans hgx)), if_neg hq,
          ih hidxr, if_neg hq]
    | enterGroup x y => exact ih hidxr
    | checkLogged x y z => exact ih hidxr
    | scopedInvoked x y z w => exact ih hidxr
    | globalInvoked x y z w => exact ih hidxr
    | routeLogged x => exact ih hidxr
    | outerLogged x => exact ih hidxr

/-- The group scan contributes invoked handlers only to its own group
index. -/
theorem scanGroup_invokedAt (st : DispatcherState) (gi : Nat) (gk : Int)
    (htype : Option HKind) (parsed : Option Nat) (t : Tag) (u c : Nat)
    (hs : List Handler) (gj : Nat) :
    invokedAt gj (scanGroup st gi gk htype parsed t u c hs).1
      = if gj = gi
        then invokedHandlers (scanGroup st gi gk htype parsed t u c hs).1
        else [] :=
  invokedAt_of_single_index gi _
    (scanGroup_events_index st gi gk htype parsed t u c hs) gj

/-- Groups visited from index `g0` on contribute no invoked handlers to
indices below `g0`. -/
theorem scanGroups_invokedAt_lt (st : DispatcherState)
    (htype : Option HKind) (parsed : Option Nat) (t : Tag) (u c : Nat) :
    ∀ (gs : List (Int × List Handler)) (g0 gj : Nat), gj < g0 →
      invokedAt gj (scanGroups st htype parsed t u c g0 gs).1 = [] := by
  intro gs
  induction gs with
  | nil => intro g0 gj hlt; rfl
  | cons q rest ih =>
    intro g0 gj hlt
    obtain ⟨gk, hs⟩ := q
    simp only [scanGroups]
    cases hesc : (scanGroup st g0 gk htype parsed t u c hs).2 with
    | some e =>
      simp only []
      rw [invokedAt_cons_none gj (Ev.enterGroup g0 gk) _ rfl,
        scanGroup_invokedAt, if_neg (by omega : ¬ gj = g0)]
    | none =>
      simp only []
      rw [invokedAt_cons_none gj (Ev.enterGroup g0 gk) _ rfl,
        invokedAt_append, scanGroup_invokedAt,
        if_neg (by omega : ¬ gj = g0), ih (g0 + 1) gj (by omega)]
      rfl

/-- For the group stored at offset `i` of the remaining group list, the
dispatch loop either yields exactly the `contTake` selection of that
group (the group was reached) or nothing (an earlier group's escape ended
the iteration first). -/
theorem scanGroups_invokedAt (st : DispatcherState) (htype : Option HKind)
    (parsed : Option Nat) (t : Tag) (u c : Nat) :
    ∀ (gs : List (Int × List Handler)) (g0 i : Nat) (gk : Int)
      (hs : List Handler), gs.get? i = some (gk, hs) →
      invokedAt (g0 + i) (scanGroups st htype parsed t u c g0 gs).1
        = contTake (hs.filter (selectsB htype))
      ∨ invokedAt (g0 + i) (scanGroups st htype parsed t u c g0 gs).1
        = [] := by
  intro gs
  induction gs with
  | nil => intro g0 i gk hs hget; simp at hget
  | cons q rest ih =>
    intro g0 i gk hs hget
    obtain ⟨gk', hs'⟩ := q
    cases i with
    | zero =>
      simp only [List.get?] at hget
      injection hget with hq
      injection hq with hq1 hq2
      subst hq1
      subst hq2
      simp only [scanGroups, Nat.add_zero]
      cases hesc : (scanGroup st g0 gk' htype parsed t u c hs').2 with
      | some e =>
        left
        rw [invokedAt_cons_none g0 (Ev.enterGroup g0 gk') _ rfl,
          scanGroup_invokedAt, if_pos rfl]
        exact scanGroup_invokedHandlers st g0 gk' htype parsed t u c hs'
      | none =>
        left
        rw [invokedAt_cons_none g0 (Ev.enterGroup g0 gk') _ rfl,
          invokedAt_append, scanGroup_invokedAt, if_pos rfl,
          scanGroups_invokedAt_lt st htype parsed t u c rest (g0 + 1) g0
            (by omega), List.append_nil]
        exact scanGroup_invokedHandlers st g0 gk' htype parsed t u c hs'
    | succ i2 =>
      simp only [List.get?] at hget
      simp only [scanGroups]
      cases hesc : (scanGroup st g0 gk' htype parsed t u c hs').2 with
      | some e =>
        right
        simp only []
        rw [invokedAt_cons_none (g0 + (i2 + 1)) (Ev.enterGroup g0 gk') _
            rfl, scanGroup_invokedAt,
          if_neg (by omega : ¬ g0 + (i2 + 1) = g0)]
      | none =>
        simp only []
        rw [invokedAt_cons_none (g0 + (i2 + 1)) (Ev.enterGroup g0 gk') _
            rfl, invokedAt_append, scanGroup_invokedAt,
          if_neg (by omega : ¬ g0 + (i2 + 1) = g0), List.nil_append,
          (by omega : g0 + (i2 + 1) = (g0 + 1) + i2)]
        exact ih (g0 + 1) i2 gk hs hget

/-- All invoked handlers before the last one of a `contTake` selection
raised `ContinuePropagation`. -/
theorem contTake_dropLast :
    ∀ l : List Handler, ∀ h2 ∈ (contTake l).dropLast,
      h2.callbackRes = some PyExn.contProp := by
  intro l
  induction l with
  | nil => intro h2 hh; simp [contTake] at hh
  | cons h rest ih =>
    intro h2 hh
    simp only [contTake] at hh
    by_cases hc : (h.callbackRes == some PyExn.contProp) = true
    · rw [if_pos hc] at hh
      cases hct : contTake rest with
      | nil =>
        rw [hct] at hh
        simp at hh
      | cons x xs =>
        rw [hct, List.dropLast_cons_of_ne_nil (by simp)] at hh
        rcases List.mem_cons.mp hh with rfl | hh2
        · exact beq_iff_eq.mp hc
        · exact ih h2 (hct ▸ hh2)
    · rw [if_neg hc] at hh
      simp at hh

/-- Claim C1 (confirmed): for every dispatched event and every handler
group, the worker's dispatch loop invokes at most one handler of that
group — the handlers invoked from the group are exactly the `contTake`
selection of the group's handlers that the selection predicate accepts in
insertion order (the first whose variant matches the event's category and
whose check returns true, or the first raw-update handler, selected
unconditionally), where scanning resumes past an invoked handler only
when it raised `ContinuePropagation`; the group may instead contribute
nothing when an earlier group's stop ended the iteration.  In
particular, every invoked handler of the group except possibly the last
raised `ContinuePropagation`. -/
theorem dispatch_at_most_one_per_group (st : DispatcherState) (t : Tag)
    (p u c : Nat) (gi : Nat) (gk : Int) (hs : List Handler)
    (hg : st.groups.get? gi = some (gk, hs)) :
    (invokedAt gi (dispatchEvent st t p u c)
        = contTake (hs.filter (selectsB (classify t)))
      ∨ invokedAt gi (dispatchEvent st t p u c) = [])
    ∧ ∀ h2 ∈ (invokedAt gi (dispatchEvent st t p u c)).dropLast,
        h2.callbackRes = some PyExn.contProp := by
  have hmain := scanGroups_invokedAt st (classify t)
    ((classify t).map (fun _ => p)) t u c st.groups 0 gi gk hs hg
  rw [Nat.zero_add] at hmain
  have htr : invokedAt gi (dispatchEvent st t p u c)
      = invokedAt gi (scanGroups st (classify t)
          ((classify t).map (fun _ => p)) t u c 0 st.groups).1 := by
    unfold dispatchEvent
    cases hesc : (scanGroups st (classify t)
        ((classify t).map (fun _ => p)) t u c 0 st.groups).2 with
    | none => simp only [hesc]
    | some e =>
      cases e
      case stopProp => simp only [hesc]
      all_goals {
        simp only [hesc]
        rw [invokedAt_append]
        simp [invokedAt, invokeAtOf] }
  constructor
  · rw [htr]
    exact hmain
  · intro h2 hh
    rw [htr] at hh
    rcases hmain with he | he
    · rw [he] at hh
      exact contTake_dropLast _ h2 hh
    · rw [he] at hh
      simp at hh

/-- Witness for C1 at a concrete input: `stW` has one group (index 0,
priority 0) with two always-matching message handlers; dispatching a new
message invokes exactly the `contTake` selection (the first handler). -/
theorem dispatch_at_most_one_per_group_witness :
    (invokedAt 0 (dispatchEvent stW Tag.updateNewMessage 5 1 2)
        = contTake ([hOkM, hOkM2].filter
            (selectsB (classify Tag.updateNewMessage)))
      ∨ invokedAt 0 (dispatchEvent stW Tag.updateNewMessage 5 1 2) = [])
    ∧ ∀ h2 ∈ (invokedAt 0
          (dispatchEvent stW Tag.updateNewMessage 5 1 2)).dropLast,
        h2.callbackRes = some PyExn.contProp :=
  dispatch_at_most_one_per_group stW Tag.updateNewMessage 5 1 2 0 0
    [hOkM, hOkM2] (by decide)

/-- A trace with no invocation events has `hasInvoke = false`. -/
theorem hasInvoke_eq_false_of (tr : List Ev)
    (h : ∀ ev ∈ tr, isInvokeEv ev = false) : hasInvoke tr = false := by
  induction tr with
  | nil => rfl
  | cons ev tr ih =>
    simp only [hasInvoke, h ev (List.mem_cons_self _ _), Bool.false_or]
    exact ih (fun e he => h e (List.mem_cons_of_mem _ he))

/-- A stop-invocation is an invocation. -/
theorem isStopInvoke_imp_isInvokeEv (ev : Ev)
    (h : isInvokeEv ev = false) : isStopInvoke ev = false := by
  cases ev <;> first | rfl | exact absurd h (by simp [isInvokeEv])

/-- A trace with no invocation events has `hasStopInvoke = false`. -/
theorem hasStopInvoke_eq_false_of (tr : List Ev)
    (h : ∀ ev ∈ tr, isInvokeEv ev = false) : hasStopInvoke tr = false := by
  induction tr with
  | nil => rfl
  | cons ev tr ih =>
    simp only [hasStopInvoke,
      isStopInvoke_imp_isInvokeEv ev (h ev (List.mem_cons_self _ _)),
      Bool.false_or]
    exact ih (fun e he => h e (List.mem_cons_of_mem _ he))

/-- Error-routing events are not invocation events. -/
theorem routeError_not_invoke (ehs : List Handler) (coros : List Bool)
    (glob : Option Handler) (globCoro : Option Bool) (e : PyExn)
    (a : Args) :
    ∀ ev ∈ (routeError ehs coros glob globCoro e a).1,
      isInvokeEv ev = false := by
  intro ev hev
  rcases routeError_events ehs coros glob globCoro e a ev hev with
    ⟨x, y, rfl⟩ | ⟨x, y, rfl⟩ | rfl <;> rfl

/-- A trace without stop-invocations trivially satisfies the
stop-ends-dispatch property. -/
theorem stopEnds_of_no_stop (tr : List Ev)
    (h : hasStopInvoke tr = false) : stopEndsDispatch tr = true := by
  induction tr with
  | nil => rfl
  | cons ev tr ih =>
    simp only [hasStopInvoke, Bool.or_eq_false_iff] at h
    simp only [stopEndsDispatch, h.1]
    rw [if_neg (by simp)]
    exact ih h.2

/-- Walking a stop-free prefix preserves the stop-ends-dispatch value. -/
theorem stopEnds_append_of_no_stop (tr2 : List Ev) :
    ∀ tr1 : List Ev, hasStopInvoke tr1 = false →
      stopEndsDispatch (tr1 ++ tr2) = stopEndsDispatch tr2 := by
  intro tr1
  induction tr1 with
  | nil => intro _; rfl
  | cons ev tr ih =>
    intro h
    simp only [hasStopInvoke, Bool.or_eq_false_iff] at h
    simp only [List.cons_append, stopEndsDispatch, h.1]
    rw [if_neg (by simp)]
    exact ih h.2

/-- The predicate `hasStopInvoke` distributes over append. -/
theorem hasStopInvoke_append (tr1 tr2 : List Ev) :
    hasStopInvoke (tr1 ++ tr2)
      = (hasStopInvoke tr1 || hasStopInvoke tr2) := by
  induction tr1 with
  | nil => simp [hasStopInvoke]
  | cons ev tr ih =>
    simp [hasStopInvoke, ih, Bool.or_assoc]

/-- The invocation block preserves the stop-invariant: its trace
satisfies stop-ends-dispatch, and it contains a stop-invocation only when
it escapes with `StopPropagation`. -/
theorem invokeOutcome_stop_inv (st : DispatcherState) (gi : Nat) (gk : Int)
    (h : Handler) (a : Args) (restRes : List Ev × Option PyExn)
    (hr1 : stopEndsDispatch restRes.1 = true)
    (hr2 : hasStopInvoke restRes.1 = true →
      restRes.2 = some PyExn.stopProp) :
    stopEndsDispatch (invokeOutcome st gi gk h a restRes).1 = true
    ∧ (hasStopInvoke (invokeOutcome st gi gk h a restRes).1 = true →
        (invokeOutcome st gi gk h a restRes).2 = some PyExn.stopProp) := by
  unfold invokeOutcome
  cases hcb : h.callbackRes with
  | none =>
    refine ⟨?_, ?_⟩
    · simp [stopEndsDispatch, isStopInvoke, hcb, beq_iff_eq]
    · intro hst
      simp [hasStopInvoke, isStopInvoke, hcb, beq_iff_eq] at hst
  | some e =>
    cases e with
    | stopProp =>
      refine ⟨?_, fun _ => rfl⟩
      simp [stopEndsDispatch, isStopInvoke, hasInvoke, hcb]
    | contProp =>
      refine ⟨?_, ?_⟩
      · simp only [stopEndsDispatch, isStopInvoke, hcb]
        rw [if_neg (by simp)]
        exact hr1
      · intro hst
        simp only [hasStopInvoke, isStopInvoke, hcb] at hst
        exact hr2 (by simpa using hst)
    | exn k =>
      refine ⟨?_, ?_⟩
      · simp only [stopEndsDispatch, isStopInvoke, hcb]
        rw [if_neg (by simp)]
        exact stopEnds_of_no_stop _
          (hasStopInvoke_eq_false_of _ (routeError_not_invoke _ _ _ _ _ _))
      · intro hst
        simp only [hasStopInvoke, isStopInvoke, hcb] at hst
        rw [hasStopInvoke_eq_false_of _
          (routeError_not_invoke _ _ _ _ _ _)] at hst
        simp at hst
    | attrError =>
      refine ⟨?_, ?_⟩
      · simp only [stopEndsDispatch, isStopInvoke, hcb]
        rw [if_neg (by simp)]
        exact stopEnds_of_no_stop _
          (hasStopInvoke_eq_false_of _ (routeError_not_invoke _ _ _ _ _ _))
      · intro hst
        simp only [hasStopInvoke, isStopInvoke, hcb] at hst
        rw [hasStopInvoke_eq_false_of _
          (routeError_not_invoke _ _ _ _ _ _)] at hst
        simp at hst
    | valueError =>
      refine ⟨?_, ?_⟩
      · simp only [stopEndsDispatch, isStopInvoke, hcb]
        rw [if_neg (by simp)]
        exact stopEnds_of_no_stop _
          (hasStopInvoke_eq_false_of _ (routeError_not_invoke _ _ _ _ _ _))
      · intro hst
        simp only [hasStopInvoke, isStopInvoke, hcb] at hst
        rw [hasStopInvoke_eq_false_of _
          (routeError_not_invoke _ _ _ _ _ _)] at hst
        simp at hst

/-- The group scan preserves the stop-invariant. -/
theorem scanGroup_stop_inv (st : DispatcherState) (gi : Nat) (gk : Int)
    (htype : Option HKind) (parsed : Option Nat) (t : Tag) (u c : Nat) :
    ∀ hs : List Handler,
      stopEndsDispatch (scanGroup st gi gk htype parsed t u c hs).1 = true
      ∧ (hasStopInvoke (scanGroup st gi gk htype parsed t u c hs).1
            = true →
          (scanGroup st gi gk htype parsed t u c hs).2
            = some PyExn.stopProp) := by
  intro hs
  induction hs with
  | nil =>
    exact ⟨rfl, by intro hst; exact absurd hst (by simp [hasStopInvoke])⟩
  | cons h rest ih =>
    obtain ⟨ih1, ih2⟩ := ih
    simp only [scanGroup]
    split
    · split
      · refine ⟨?_, ?_⟩
        · simp only [stopEndsDispatch, isStopInvoke]
          rw [if_neg (by simp)]
          exact ih1
        · intro hst
          simp only [hasStopInvoke, isStopInvoke, Bool.false_or] at hst
          exact ih2 hst
      · split
        · exact invokeOutcome_stop_inv st gi gk h (Args.parsedArg parsed)
            _ ih1 ih2
        · exact ⟨ih1, ih2⟩
    · split
      · exact invokeOutcome_stop_inv st gi gk h (Args.rawArg t u c)
          _ ih1 ih2
      · exact ⟨ih1, ih2⟩

/-- The whole group iteration preserves the stop-invariant. -/
theorem scanGroups_stop_inv (st : DispatcherState) (htype : Option HKind)
    (parsed : Option Nat) (t : Tag) (u c : Nat) :
    ∀ (gs : List (Int × List Handler)) (g0 : Nat),
      stopEndsDispatch (scanGroups st htype parsed t u c g0 gs).1 = true
      ∧ (hasStopInvoke (scanGroups st htype parsed t u c g0 gs).1
            = true →
          (scanGroups st htype parsed t u c g0 gs).2
            = some PyExn.stopProp) := by
  intro gs
  induction gs with
  | nil =>
    intro g0
    exact ⟨rfl, by intro hst; exact absurd hst (by simp [hasStopInvoke])⟩
  | cons q rest ih =>
    intro g0
    obtain ⟨gk, hs⟩ := q
    obtain ⟨hg1, hg2⟩ := scanGroup_stop_inv st g0 gk htype parsed t u c hs
    obtain ⟨ih1, ih2⟩ := ih (g0 + 1)
    simp only [scanGroups]
    cases hesc : (scanGroup st g0 gk htype parsed t u c hs).2 with
    | some e =>
      refine ⟨?_, ?_⟩
      · simp only [stopEndsDispatch, isStopInvoke]
        rw [if_neg (by simp)]
        exact hg1
      · intro hst
        simp only [hasStopInvoke, isStopInvoke, Bool.false_or] at hst
        have h3 : some e = some PyExn.stopProp := by
          rw [← hesc]
          exact hg2 hst
        exact h3
    | none =>
      have hfree : hasStopInvoke
          (scanGroup st g0 gk htype parsed t u c hs).1 = false := by
        cases hx : hasStopInvoke (scanGroup st g0 gk htype parsed t u c
            hs).1
        · rfl
        · exact absurd (hg2 hx) (by rw [hesc]; simp)
      refine ⟨?_, ?_⟩
      · simp only [stopEndsDispatch, isStopInvoke]
        rw [if_neg (by simp)]
        rw [stopEnds_append_of_no_stop _ _ hfree]
        exact ih1
      · intro hst
        simp only [hasStopInvoke, isStopInvoke, Bool.false_or] at hst
        rw [hasStopInvoke_append, hfree, Bool.false_or] at hst
        exact ih2 hst

/-- Claim C2 (confirmed): once an invoked handler raises
`StopPropagation`, no further group handler — of the same or of any later
group — is invoked for that event (`stopEndsDispatch` holds for every
dispatch trace), and the worker loop simply proceeds with the next
dequeued packet. -/
theorem stop_propagation_halts_event (st : DispatcherState) (t : Tag)
    (p u c : Nat) :
    stopEndsDispatch (dispatchEvent st t p u c) = true
    ∧ ∀ (q : Packet) (rest : List Packet),
        processPackets st (q :: rest)
          = dispatchEvent st q.1 q.2.1 q.2.2.1 q.2.2.2
            ++ processPackets st rest := by
  constructor
  · unfold dispatchEvent
    obtain ⟨hg1, hg2⟩ := scanGroups_stop_inv st (classify t)
      ((classify t).map (fun _ => p)) t u c st.groups 0
    cases hesc : (scanGroups st (classify t)
        ((classify t).map (fun _ => p)) t u c 0 st.groups).2 with
    | none =>
      simp only [hesc]
      exact hg1
    | some e =>
      cases e
      case stopProp =>
        simp only [hesc]
        exact hg1
      all_goals {
        simp only [hesc]
        have hfree : hasStopInvoke (scanGroups st (classify t)
            ((classify t).map (fun _ => p)) t u c 0 st.groups).1
              = false := by
          cases hx : hasStopInvoke (scanGroups st (classify t)
              ((classify t).map (fun _ => p)) t u c 0 st.groups).1
          · rfl
          · exact absurd (hg2 hx) (by rw [hesc]; simp)
        rw [stopEnds_append_of_no_stop _ _ hfree]
        rfl }
  · intro q rest
    rfl

/-- Lookup through an insertion step: the inserted pair shadows the rest
exactly on its own key. -/
theorem lookupG_insertPair (g : Int) (p : Int × List Handler) :
    ∀ l, lookupG g (insertPair p l)
      = if p.1 == g then some p.2 else lookupG g l := by
  intro l
  induction l with
  | nil => rfl
  | cons q rest ih =>
    simp only [insertPair]
    by_cases hle : p.1 ≤ q.1
    · rw [if_pos hle]
      rfl
    · rw [if_neg hle]
      simp only [lookupG, ih]
      by_cases hq : (q.1 == g) = true
      · have h1 : q.1 = g := beq_iff_eq.mp hq
        have hp : ¬ ((p.1 == g) = true) := by
          intro hp
          exact hle (le_of_eq ((beq_iff_eq.mp hp).trans h1.symm))
        simp [hq, hp]
      · simp [hq]

/-- Sorting the group mapping does not change lookups. -/
theorem lookupG_sortGroups (g : Int) :
    ∀ l, lookupG g (sortGroups l) = lookupG g l := by
  intro l
  induction l with
  | nil => rfl
  | cons p rest ih =>
    simp only [sortGroups, lookupG_insertPair, ih]
    rfl

/-- Lookup over append tries the left mapping first. -/
theorem lookupG_append (g : Int) :
    ∀ l1 l2 : List (Int × List Handler),
      lookupG g (l1 ++ l2)
        = match lookupG g l1 with
          | some v => some v
          | none => lookupG g l2 := by
  intro l1 l2
  induction l1 with
  | nil => rfl
  | cons p rest ih =>
    show lookupG g (p :: (rest ++ l2)) = _
    simp only [lookupG]
    by_cases hp : (p.1 == g) = true
    · rw [if_pos hp, if_pos hp]
    · rw [if_neg hp, if_neg hp]
      exact ih

/-- Lookup after `appendToGroup`: the handler appears appended exactly on
the named group's key. -/
theorem lookupG_appendToGroup (g k : Int) (h : Handler) :
    ∀ l, lookupG k (appendToGroup g h l)
      = (lookupG k l).map (fun hs => if k == g then hs ++ [h] else hs) := by
  intro l
  induction l with
  | nil => rfl
  | cons p rest ih =>
    simp only [appendToGroup, List.map_cons] at ih ⊢
    by_cases hp : (p.1 == g) = true
    · rw [if_pos hp]
      simp only [lookupG]
      by_cases hk : (p.1 == k) = true
      · have hkg : (k == g) = true := by
          rw [beq_iff_eq]
          exact (beq_iff_eq.mp hk).symm.trans (beq_iff_eq.mp hp)
        rw [if_pos hk, if_pos hk]
        simp [hkg]
      · rw [if_neg hk, if_neg hk]
        exact ih
    · rw [if_neg hp]
      simp only [lookupG]
      by_cases hk : (p.1 == k) = true
      · have hkg : (k == g) = false := by
          rw [beq_eq_false_iff_ne]
          intro hkg2
          exact hp (beq_iff_eq.mpr ((beq_iff_eq.mp hk).trans hkg2))
        rw [if_pos hk, if_pos hk]
        simp [hkg]
      · rw [if_neg hk, if_neg hk]
        exact ih

/-- A `False` group membership test is exactly an empty lookup. -/
theorem hasGroup_false_iff (st : DispatcherState) (g : Int) :
    hasGroup st g = false ↔ lookupG g st.groups = none := by
  unfold hasGroup
  cases lookupG g st.groups <;> simp

/-- Empty lookup means the key is absent. -/
theorem lookupG_none_iff (g : Int) :
    ∀ l : List (Int × List Handler),
      lookupG g l = none ↔ g ∉ l.map Prod.fst := by
  intro l
  induction l with
  | nil => simp [lookupG]
  | cons p rest ih =>
    simp only [lookupG, List.map_cons, List.mem_cons]
    by_cases hp : (p.1 == g) = true
    · have := beq_iff_eq.mp hp
      simp [hp, this.symm]
    · have hne : ¬ (g = p.1) := by
        intro hq
        exact hp (by rw [beq_iff_eq]; exact hq.symm)
      simp [hp, ih, hne]

/-- The group list of `add_handler`'s result: the handler is appended to
its group (created empty first when missing); other groups are
untouched. -/
theorem addHandler_groups (st : DispatcherState) (h : Handler) (g : Int) :
    (addHandler st h g).groups
      = appendToGroup g h (if hasGroup st g then st.groups
          else sortGroups (st.groups ++ [(g, [])])) := by
  unfold addHandler
  by_cases hk : (h.kind == HKind.error) = true
  · cases herr : h.errors <;> simp [hk, herr]
  · simp [hk]

/-- Per-key effect of one `add_handler` call. -/
theorem addHandler_groupList (st : DispatcherState) (h : Handler)
    (g k : Int) :
    groupList (addHandler st h g) k
      = if k == g then groupList st k ++ [h] else groupList st k := by
  unfold groupList
  rw [addHandler_groups, lookupG_appendToGroup]
  by_cases hg : hasGroup st g = true
  · rw [if_pos hg]
    by_cases hk : (k == g) = true
    · have hkg : k = g := beq_iff_eq.mp hk
      subst hkg
      unfold hasGroup at hg
      cases hl : lookupG k st.groups with
      | none => rw [hl] at hg; simp at hg
      | some hs => simp [hl, hk]
    · cases hl : lookupG k st.groups <;> simp [hl, hk]
  · rw [if_neg hg]
    rw [lookupG_sortGroups, lookupG_append]
    have hnone : lookupG g st.groups = none :=
      (hasGroup_false_iff st g).mp (by simpa using hg)
    by_cases hk : (k == g) = true
    · have hkg : k = g := beq_iff_eq.mp hk
      subst hkg
      rw [hnone]
      simp [lookupG, hk]
    · cases hl : lookupG k st.groups with
      | some hs => simp [hl, hk]
      | none =>
        have hgk : (g == k) = false := by
          rw [beq_eq_false_iff_ne]
          intro hq
          exact hk (by rw [beq_iff_eq]; exact hq.symm)
        simp [hl, hk, lookupG, hgk]

/-- After any sequence of `add_handler` calls from the fresh dispatcher,
each group holds exactly the handlers registered under its key, in
registration order. -/
theorem buildState_groupList (ops : List (Handler × Int)) (k : Int) :
    groupList (buildState ops) k
      = (ops.filter (fun q => q.2 == k)).map Prod.fst := by
  suffices hgen : ∀ (ops : List (Handler × Int)) (st : DispatcherState),
      groupList (ops.foldl (fun s q => addHandler s q.1 q.2) st) k
        = groupList st k ++ (ops.filter (fun q => q.2 == k)).map Prod.fst by
    have := hgen ops initialState
    unfold buildState
    rw [this]
    simp [groupList, initialState, lookupG]
  intro ops
  induction ops with
  | nil => intro st; simp
  | cons q rest ih =>
    intro st
    simp only [List.foldl_cons, List.filter_cons]
    rw [ih, addHandler_groupList]
    by_cases hq : (q.2 == k) = true
    · have hkq : (k == q.2) = true := by
        rw [beq_iff_eq]
        exact (beq_iff_eq.mp hq).symm
      simp [hq, hkq]
    · have hkq : (k == q.2) = false := by
        rw [beq_eq_false_iff_ne]
        intro hck
        exact hq (by rw [beq_iff_eq]; exact hck.symm)
      simp [hq, hkq]

/-- Appending into a group does not change the key sequence. -/
theorem appendToGroup_keys (g : Int) (h : Handler) :
    ∀ l, (appendToGroup g h l).map Prod.fst = l.map Prod.fst := by
  intro l
  induction l with
  | nil => rfl
  | cons p rest ih =>
    simp only [appendToGroup, List.map_cons] at ih ⊢
    by_cases hp : (p.1 == g) = true
    · rw [if_pos hp, ih]
    · rw [if_neg hp, ih]

/-- Inserting a pair is a permutation of prepending it. -/
theorem insertPair_perm (p : Int × List Handler) :
    ∀ l, List.Perm (insertPair p l) (p :: l) := by
  intro l
  induction l with
  | nil => exact List.Perm.refl _
  | cons q rest ih =>
    simp only [insertPair]
    by_cases hle : p.1 ≤ q.1
    · rw [if_pos hle]
    · rw [if_neg hle]
      exact (ih.cons q).trans (List.Perm.swap p q rest)

/-- Sorting the group mapping is a permutation. -/
theorem sortGroups_perm :
    ∀ l : List (Int × List Handler), List.Perm (sortGroups l) l := by
  intro l
  induction l with
  | nil => exact List.Perm.refl _
  | cons p rest ih =>
    exact (insertPair_perm p (sortGroups rest)).trans (ih.cons p)

/-- Insertion preserves key-sortedness. -/
theorem insertPair_pairwise (p : Int × List Handler) :
    ∀ l, List.Pairwise (fun a b : Int × List Handler => a.1 ≤ b.1) l →
      List.Pairwise (fun a b : Int × List Handler => a.1 ≤ b.1)
        (insertPair p l) := by
  intro l
  induction l with
  | nil => intro _; exact List.Pairwise.cons (by simp) List.Pairwise.nil
  | cons q rest ih =>
    intro hpw
    rcases List.pairwise_cons.mp hpw with ⟨hq, hrest⟩
    simp only [insertPair]
    by_cases hle : p.1 ≤ q.1
    · rw [if_pos hle]
      refine List.pairwise_cons.mpr ⟨?_, hpw⟩
      intro b hb
      rcases List.mem_cons.mp hb with rfl | hb
      · exact hle
      · exact le_trans hle (hq b hb)
    · rw [if_neg hle]
      refine List.pairwise_cons.mpr ⟨?_, ih hrest⟩
      intro b hb
      rcases List.mem_cons.mp ((insertPair_perm p rest).mem_iff.mp hb)
        with rfl | hb2
      · exact le_of_lt (lt_of_not_le hle)
      · exact hq b hb2

/-- The sorted group mapping is key-sorted (non-strictly). -/
theorem sortGroups_pairwise :
    ∀ l : List (Int × List Handler),
      List.Pairwise (fun a b : Int × List Handler => a.1 ≤ b.1)
        (sortGroups l) := by
  intro l
  induction l with
  | nil => exact List.Pairwise.nil
  | cons p rest ih => exact insertPair_pairwise p (sortGroups rest) ih

/-- One `add_handler` call preserves strictly ascending group keys. -/
theorem addHandler_sortedKeys (st : DispatcherState) (h : Handler)
    (g : Int)
    (hsorted : List.Pairwise (· < ·) (st.groups.map Prod.fst)) :
    List.Pairwise (· < ·) ((addHandler st h g).groups.map Prod.fst) := by
  rw [addHandler_groups, appendToGroup_keys]
  by_cases hg : hasGroup st g = true
  · rw [if_pos hg]
    exact hsorted
  · rw [if_neg (by simpa using hg)]
    have hperm := sortGroups_perm (st.groups ++ [(g, [])])
    have hle : List.Pairwise (· ≤ ·)
        ((sortGroups (st.groups ++ [(g, [])])).map Prod.fst) :=
      List.Pairwise.map Prod.fst (fun a b hab => hab)
        (sortGroups_pairwise (st.groups ++ [(g, [])]))
    have hgmem : g ∉ st.groups.map Prod.fst := by
      rw [← lookupG_none_iff]
      exact (hasGroup_false_iff st g).mp (by simpa using hg)
    have hnd0 : (st.groups.map Prod.fst).Nodup :=
      hsorted.imp (fun hab => ne_of_lt hab)
    have hnd1 : ((st.groups ++ [(g, [])]).map Prod.fst).Nodup := by
      rw [List.map_append]
      refine List.Nodup.append hnd0 (by simp) ?_
      intro a ha1 ha2
      simp only [List.map_cons, List.map_nil, List.mem_singleton] at ha2
      subst ha2
      exact hgmem ha1
    have hnd : ((sortGroups (st.groups ++ [(g, [])])).map Prod.fst).Nodup :=
      ((hperm.map Prod.fst).nodup_iff).mpr hnd1
    exact (hle.and hnd).imp (fun hab => lt_of_le_of_ne hab.1 hab.2)

/-- After any sequence of `add_handler` calls from the fresh dispatcher,
the group keys are strictly ascending. -/
theorem buildState_sortedKeys (ops : List (Handler × Int)) :
    List.Pairwise (· < ·) ((buildState ops).groups.map Prod.fst) := by
  suffices hgen : ∀ (ops : List (Handler × Int)) (st : DispatcherState),
      List.Pairwise (· < ·) (st.groups.map Prod.fst) →
      List.Pairwise (· < ·)
        ((ops.foldl (fun s q => addHandler s q.1 q.2) st).groups.map
          Prod.fst) by
    exact hgen ops initialState (by simp [initialState])
  intro ops
  induction ops with
  | nil => intro st hst; exact hst
  | cons q rest ih =>
    intro st hst
    exact ih _ (addHandler_sortedKeys st q.1 q.2 hst)

/-- A visited group key is recorded at the head of the visit list. -/
theorem enterKeys_cons_enter (gi : Nat) (gk : Int) (tr : List Ev) :
    enterKeys (Ev.enterGroup gi gk :: tr) = gk :: enterKeys tr := rfl

/-- Visit keys distribute over append. -/
theorem enterKeys_append (l1 l2 : List Ev) :
    enterKeys (l1 ++ l2) = enterKeys l1 ++ enterKeys l2 := by
  simp [enterKeys, List.filterMap_append]

/-- Traces without group-entry events record no visit keys. -/
theorem enterKeys_eq_nil_of (tr : List Ev)
    (h : ∀ ev ∈ tr, ∀ gi gk, ev ≠ Ev.enterGroup gi gk) :
    enterKeys tr = [] := by
  unfold enterKeys
  rw [List.filterMap_eq_nil_iff]
  intro ev hev
  cases ev with
  | enterGroup gi gk => exact absurd rfl (h _ hev gi gk)
  | invoke a b x y => rfl
  | checkLogged a b x => rfl
  | scopedInvoked a b x y => rfl
  | globalInvoked a b x y => rfl
  | routeLogged a => rfl
  | outerLogged a => rfl

/-- The group scan itself records no visit keys. -/
theorem scanGroup_enterKeys (st : DispatcherState) (gi : Nat) (gk : Int)
    (htype : Option HKind) (parsed : Option Nat) (t : Tag) (u c : Nat) :
    ∀ hs, enterKeys (scanGroup st gi gk htype parsed t u c hs).1 = [] := by
  intro hs
  induction hs with
  | nil => rfl
  | cons h rest ih =>
    have houtcome : ∀ a0 : Args,
        enterKeys (invokeOutcome st gi gk h a0
          (scanGroup st gi gk htype parsed t u c rest)).1 = [] := by
      intro a0
      unfold invokeOutcome
      cases hcb : h.callbackRes with
      | none => rfl
      | some e =>
        cases e
        case stopProp => rfl
        case contProp => exact ih
        all_goals {
          refine enterKeys_eq_nil_of _ (fun ev hev gi' gk' => ?_)
          rcases List.mem_cons.mp hev with rfl | hev2
          · simp
          · rcases routeError_events _ _ _ _ _ _ ev hev2 with
              ⟨x, y, rfl⟩ | ⟨x, y, rfl⟩ | rfl <;> simp }
    simp only [scanGroup]
    split
    · split
      · exact ih
      · split
        · exact houtcome (Args.parsedArg parsed)
        · exact ih
    · split
      · exact houtcome (Args.rawArg t u c)
      · exact ih

/-- The visit-key list of the group iteration is a prefix of the group
keys, in mapping order. -/
theorem scanGroups_enterKeys (st : DispatcherState) (htype : Option HKind)
    (parsed : Option Nat) (t : Tag) (u c : Nat) :
    ∀ (gs : List (Int × List Handler)) (g0 : Nat),
      ∃ rest : List Int,
        gs.map Prod.fst
          = enterKeys (scanGroups st htype parsed t u c g0 gs).1
            ++ rest := by
  intro gs
  induction gs with
  | nil => intro g0; exact ⟨[], rfl⟩
  | cons q rest ih =>
    intro g0
    obtain ⟨gk, hs⟩ := q
    simp only [scanGroups]
    cases hesc : (scanGroup st g0 gk htype parsed t u c hs).2 with
    | some e =>
      refine ⟨rest.map Prod.fst, ?_⟩
      simp only [List.map_cons]
      rw [enterKeys_cons_enter, scanGroup_enterKeys]
      rfl
    | none =>
      obtain ⟨r2, hr2⟩ := ih (g0 + 1)
      refine ⟨r2, ?_⟩
      simp only [List.map_cons]
      rw [enterKeys_cons_enter, enterKeys_append, scanGroup_enterKeys,
        List.nil_append, List.cons_append, ← hr2]

/-- The dispatch loop visits group keys as a prefix of the registry's key
sequence. -/
theorem dispatch_enterKeys (st : DispatcherState) (t : Tag)
    (p u c : Nat) :
    ∃ rest : List Int,
      st.groups.map Prod.fst
        = enterKeys (dispatchEvent st t p u c) ++ rest := by
  unfold dispatchEvent
  cases hesc : (scanGroups st (classify t)
      ((classify t).map (fun _ => p)) t u c 0 st.groups).2 with
  | none =>
    simp only [hesc]
    exact scanGroups_enterKeys st (classify t)
      ((classify t).map (fun _ => p)) t u c st.groups 0
  | some e =>
    cases e
    case stopProp =>
      simp only [hesc]
      exact scanGroups_enterKeys st (classify t)
        ((classify t).map (fun _ => p)) t u c st.groups 0
    all_goals {
      simp only [hesc]
      obtain ⟨r2, hr2⟩ := scanGroups_enterKeys st (classify t)
        ((classify t).map (fun _ => p)) t u c st.groups 0
      refine ⟨r2, ?_⟩
      rw [enterKeys_append]
      simpa using hr2 }

/-- Claim C4 (confirmed): after every sequence of `add_handler` calls
from the fresh dispatcher, the registry's group keys are strictly
ascending and each group holds exactly the handlers registered under its
key in registration order; one event's dispatch visits groups as a
prefix of that ascending key sequence; and for the spec's example —
registering into groups 0, 5, 5, 2 — the key sequence is `[0, 2, 5]`,
one matching dispatch visits exactly `[0, 2, 5]`, and each group invokes
only its first matching handler. -/
theorem add_handler_sorted_registry (ops : List (Handler × Int)) :
    List.Pairwise (· < ·) ((buildState ops).groups.map Prod.fst)
    ∧ (∀ k : Int, groupList (buildState ops) k
        = (ops.filter (fun q => q.2 == k)).map Prod.fst)
    ∧ (∀ (t : Tag) (p u c : Nat), ∃ rest : List Int,
        (buildState ops).groups.map Prod.fst
          = enterKeys (dispatchEvent (buildState ops) t p u c) ++ rest)
    ∧ (buildState exOps).groups.map Prod.fst = [0, 2, 5]
    ∧ enterKeys (dispatchEvent (buildState exOps)
        Tag.updateNewMessage 0 0 0) = [0, 2, 5]
    ∧ invokedHandlers (dispatchEvent (buildState exOps)
        Tag.updateNewMessage 0 0 0) = [hOkM, hOkM, hOkM2] :=
  ⟨buildState_sortedKeys ops, buildState_groupList ops,
    fun t p u c => dispatch_enterKeys (buildState ops) t p u c,
    by decide, by decide, by decide⟩

/-- The lock invariant holds initially. -/
theorem linv_init (n m : Nat) : LInv (initState n m) := by
  refine ⟨?_, ?_, ?_, ?_, ?_, ?_⟩
  · intro i
    simp [initState]
  · intro i i1 hsome
    exact absurd hsome (by simp [initState])
  · intro j k hmj
    exact absurd hmj (by simp [initState])
  · intro j hmj
    exact absurd hmj (by simp [initState])
  · intro j k hmj
    exact absurd hmj (by simp [initState])
  · intro j _ l
    simp [initState]

/-- Invariant preservation: a worker acquires its own free lock. -/
theorem linv_workerAcquire {n m : Nat} {s s' : SysState n m}
    (hinv : LInv s) (i : Fin n)
    (hw : s.wphase i = WPhase.idle) (hl : s.lockHeld i = none)
    (e1 : s'.lockHeld =
      Function.update s.lockHeld i (some (LockActor.worker i)))
    (e2 : s'.wphase = Function.update s.wphase i WPhase.dispatching)
    (e3 : s'.mphase = s.mphase) : LInv s' := by
  obtain ⟨I1, I2, I3, I4, I5, I6⟩ := hinv
  refine ⟨?_, ?_, ?_, ?_, ?_, ?_⟩
  · intro i0
    rw [e1, e2, Function.update_apply, Function.update_apply]
    by_cases hi : i0 = i
    · subst hi
      simp
    · rw [if_neg hi, if_neg hi]
      exact I1 i0
  · intro i0 i1
    rw [e1, Function.update_apply]
    by_cases hi : i0 = i
    · subst hi
      rw [if_pos rfl]
      intro hsome
      injection hsome with h1
      injection h1 with h2
      exact h2.symm
    · rw [if_neg hi]
      exact I2 i0 i1
  · intro j k hmj
    rw [e3] at hmj
    obtain ⟨hk, hiff⟩ := I3 j k hmj
    refine ⟨hk, fun l => ?_⟩
    rw [e1, Function.update_apply]
    by_cases hli : l = i
    · subst hli
      constructor
      · intro hlt
        exfalso
        have h2 := (hiff l).mp hlt
        rw [hl] at h2
        exact Option.noConfusion h2
      · intro hsome
        rw [if_pos rfl] at hsome
        exact absurd hsome (by simp)
    · rw [if_neg hli]
      exact hiff l
  · intro j hmj l
    rw [e3] at hmj
    exfalso
    have h2 := I4 j hmj i
    rw [hl] at h2
    exact Option.noConfusion h2
  · intro j k hmj
    rw [e3] at hmj
    obtain ⟨hk, hiff⟩ := I5 j k hmj
    refine ⟨hk, fun l => ?_⟩
    rw [e1, Function.update_apply]
    by_cases hli : l = i
    · subst hli
      constructor
      · intro hle
        exfalso
        have h2 := (hiff l).mp hle
        rw [hl] at h2
        exact Option.noConfusion h2
      · intro hsome
        rw [if_pos rfl] at hsome
        exact absurd hsome (by simp)
    · rw [if_neg hli]
      exact hiff l
  · intro j hmj l
    rw [e3] at hmj
    rw [e1, Function.update_apply]
    by_cases hli : l = i
    · rw [if_pos hli]
      simp
    · rw [if_neg hli]
      exact I6 j hmj l

/-- Invariant preservation: a worker releases its own lock. -/
theorem linv_workerRelease {n m : Nat} {s s' : SysState n m}
    (hinv : LInv s) (i : Fin n)
    (hw : s.wphase i = WPhase.dispatching)
    (e1 : s'.lockHeld = Function.update s.lockHeld i none)
    (e2 : s'.wphase = Function.update s.wphase i WPhase.idle)
    (e3 : s'.mphase = s.mphase) : LInv s' := by
  obtain ⟨I1, I2, I3, I4, I5, I6⟩ := hinv
  have hlock : s.lockHeld i = some (LockActor.worker i) := (I1 i).mp hw
  refine ⟨?_, ?_, ?_, ?_, ?_, ?_⟩
  · intro i0
    rw [e1, e2, Function.update_apply, Function.update_apply]
    by_cases hi : i0 = i
    · subst hi
      simp
    · rw [if_neg hi, if_neg hi]
      exact I1 i0
  · intro i0 i1
    rw [e1, Function.update_apply]
    by_cases hi : i0 = i
    · rw [if_pos hi]
      intro hsome
      exact Option.noConfusion hsome
    · rw [if_neg hi]
      exact I2 i0 i1
  · intro j k hmj
    rw [e3] at hmj
    obtain ⟨hk, hiff⟩ := I3 j k hmj
    refine ⟨hk, fun l => ?_⟩
    rw [e1, Function.update_apply]
    by_cases hli : l = i
    · subst hli
      constructor
      · intro hlt
        exfalso
        have h2 := (hiff l).mp hlt
        rw [hlock] at h2
        simp at h2
      · intro hsome
        rw [if_pos rfl] at hsome
        exact Option.noConfusion hsome
    · rw [if_neg hli]
      exact hiff l
  · intro j hmj l
    rw [e3] at hmj
    exfalso
    have h2 := I4 j hmj i
    rw [hlock] at h2
    simp at h2
  · intro j k hmj
    rw [e3] at hmj
    obtain ⟨hk, hiff⟩ := I5 j k hmj
    refine ⟨hk, fun l => ?_⟩
    rw [e1, Function.update_apply]
    by_cases hli : l = i
    · subst hli
      constructor
      · intro hle
        exfalso
        have h2 := (hiff l).mp hle
        rw [hlock] at h2
        simp at h2
      · intro hsome
        rw [if_pos rfl] at hsome
        exact Option.noConfusion hsome
    · rw [if_neg hli]
      exact hiff l
  · intro j hmj l
    rw [e3] at hmj
    rw [e1, Function.update_apply]
    by_cases hli : l = i
    · rw [if_pos hli]
      simp
    · rw [if_neg hli]
      exact I6 j hmj l

/-- Invariant preservation: a mutation task starts its acquire loop. -/
theorem linv_mutStart {n m : Nat} {s s' : SysState n m}
    (hinv : LInv s) (j : Fin m) (hm : s.mphase j = MPhase.idle)
    (e1 : s'.lockHeld = s.lockHeld) (e2 : s'.wphase = s.wphase)
    (e3 : s'.mphase = Function.update s.mphase j (MPhase.acquiring 0)) :
    LInv s' := by
  obtain ⟨I1, I2, I3, I4, I5, I6⟩ := hinv
  refine ⟨?_, ?_, ?_, ?_, ?_, ?_⟩
  · intro i0
    rw [e1, e2]
    exact I1 i0
  · intro i0 i1
    rw [e1]
    exact I2 i0 i1
  · intro j0 k hmj
    rw [e3, Function.update_apply] at hmj
    by_cases hj : j0 = j
    · rw [if_pos hj] at hmj
      injection hmj with hk0
      subst hk0
      refine ⟨Nat.zero_le n, fun l => ?_⟩
      rw [e1]
      constructor
      · intro hlt
        omega
      · intro hsome
        subst hj
        exact absurd hsome (I6 j0 hm l)
    · rw [if_neg hj] at hmj
      obtain ⟨hk, hiff⟩ := I3 j0 k hmj
      exact ⟨hk, fun l => by rw [e1]; exact hiff l⟩
  · intro j0 hmj l
    rw [e3, Function.update_apply] at hmj
    by_cases hj : j0 = j
    · rw [if_pos hj] at hmj
      exact absurd hmj (by simp)
    · rw [if_neg hj] at hmj
      rw [e1]
      exact I4 j0 hmj l
  · intro j0 k hmj
    rw [e3, Function.update_apply] at hmj
    by_cases hj : j0 = j
    · rw [if_pos hj] at hmj
      exact absurd hmj (by simp)
    · rw [if_neg hj] at hmj
      obtain ⟨hk, hiff⟩ := I5 j0 k hmj
      exact ⟨hk, fun l => by rw [e1]; exact hiff l⟩
  · intro j0 hmj l
    rw [e3, Function.update_apply] at hmj
    by_cases hj : j0 = j
    · rw [if_pos hj] at hmj
      exact absurd hmj (by simp)
    · rw [if_neg hj] at hmj
      rw [e1]
      exact I6 j0 hmj l

/-- Invariant preservation: a mutation task acquires the next free lock
of its acquire loop. -/
theorem linv_mutAcquire {n m : Nat} {s s' : SysState n m}
    (hinv : LInv s) (j : Fin m) (k : Nat)
    (hm : s.mphase j = MPhase.acquiring k) (hk : k < n)
    (hl : s.lockHeld ⟨k, hk⟩ = none)
    (e1 : s'.lockHeld =
      Function.update s.lockHeld ⟨k, hk⟩ (some (LockActor.mutator j)))
    (e2 : s'.wphase = s.wphase)
    (e3 : s'.mphase =
      Function.update s.mphase j (MPhase.acquiring (k + 1))) :
    LInv s' := by
  obtain ⟨I1, I2, I3, I4, I5, I6⟩ := hinv
  obtain ⟨hkn, hiffj⟩ := I3 j k hm
  refine ⟨?_, ?_, ?_, ?_, ?_, ?_⟩
  · intro i0
    rw [e1, e2, Function.update_apply]
    by_cases hi : i0 = ⟨k, hk⟩
    · subst hi
      rw [if_pos rfl]
      constructor
      · intro hd
        exfalso
        have h2 := (I1 _).mp hd
        rw [hl] at h2
        exact Option.noConfusion h2
      · intro hsome
        exact absurd hsome (by simp)
    · rw [if_neg hi]
      exact I1 i0
  · intro i0 i1
    rw [e1, Function.update_apply]
    by_cases hi : i0 = ⟨k, hk⟩
    · rw [if_pos hi]
      intro hsome
      exact absurd hsome (by simp)
    · rw [if_neg hi]
      exact I2 i0 i1
  · intro j0 k0 hmj
    rw [e3, Function.update_apply] at hmj
    by_cases hj : j0 = j
    · rw [if_pos hj] at hmj
      injection hmj with hkeq
      subst hj
      refine ⟨by omega, fun l => ?_⟩
      rw [e1, Function.update_apply]
      by_cases hli : l = ⟨k, hk⟩
      · rw [if_pos hli]
        constructor
        · intro _
          rfl
        · intro _
          rw [← hkeq]
          have hlv : l.val = k := by rw [hli]
          omega
      · rw [if_neg hli]
        have hlv : l.val ≠ k := fun hh => hli (Fin.ext hh)
        rw [← hkeq]
        constructor
        · intro hlt
          exact (hiffj l).mp (by omega)
        · intro hsome
          have h2 := (hiffj l).mpr hsome
          omega
    · rw [if_neg hj] at hmj
      obtain ⟨hk2, hiff2⟩ := I3 j0 k0 hmj
      refine ⟨hk2, fun l => ?_⟩
      rw [e1, Function.update_apply]
      by_cases hli : l = ⟨k, hk⟩
      · rw [if_pos hli]
        constructor
        · intro hlt
          exfalso
          have h2 := (hiff2 l).mp hlt
          rw [hli, hl] at h2
          exact Option.noConfusion h2
        · intro hsome
          exfalso
          injection hsome with h1
          injection h1 with h2
          exact hj h2.symm
      · rw [if_neg hli]
        exact hiff2 l
  · intro j0 hmj l
    rw [e3, Function.update_apply] at hmj
    by_cases hj : j0 = j
    · rw [if_pos hj] at hmj
      exact absurd hmj (by simp)
    · rw [if_neg hj] at hmj
      exfalso
      have h2 := I4 j0 hmj ⟨k, hk⟩
      rw [hl] at h2
      exact Option.noConfusion h2
  · intro j0 k0 hmj
    rw [e3, Function.update_apply] at hmj
    by_cases hj : j0 = j
    · rw [if_pos hj] at hmj
      exact absurd hmj (by simp)
    · rw [if_neg hj] at hmj
      obtain ⟨hk2, hiff2⟩ := I5 j0 k0 hmj
      refine ⟨hk2, fun l => ?_⟩
      rw [e1, Function.update_apply]
      by_cases hli : l = ⟨k, hk⟩
      · rw [if_pos hli]
        constructor
        · intro hle
          exfalso
          have h2 := (hiff2 l).mp hle
          rw [hli, hl] at h2
          exact Option.noConfusion h2
        · intro hsome
          exfalso
          injection hsome with h1
          injection h1 with h2
          exact hj h2.symm
      · rw [if_neg hli]
        exact hiff2 l
  · intro j0 hmj l
    rw [e3, Function.update_apply] at hmj
    by_cases hj : j0 = j
    · rw [if_pos hj] at hmj
      exact absurd hmj (by simp)
    · rw [if_neg hj] at hmj
      rw [e1, Function.update_apply]
      by_cases hli : l = ⟨k, hk⟩
      · rw [if_pos hli]
        intro hsome
        injection hsome with h1
        injection h1 with h2
        exact hj h2.symm
      · rw [if_neg hli]
        exact I6 j0 hmj l

/-- Invariant preservation: a mutation task that has acquired every lock
enters its critical section. -/
theorem linv_mutEnter {n m : Nat} {s s' : SysState n m}
    (hinv : LInv s) (j : Fin m) (hm : s.mphase j = MPhase.acquiring n)
    (e1 : s'.lockHeld = s.lockHeld) (e2 : s'.wphase = s.wphase)
    (e3 : s'.mphase = Function.update s.mphase j MPhase.mutating) :
    LInv s' := by
  obtain ⟨I1, I2, I3, I4, I5, I6⟩ := hinv
  obtain ⟨hkn, hiffj⟩ := I3 j n hm
  refine ⟨?_, ?_, ?_, ?_, ?_, ?_⟩
  · intro i0
    rw [e1, e2]
    exact I1 i0
  · intro i0 i1
    rw [e1]
    exact I2 i0 i1
  · intro j0 k hmj
    rw [e3, Function.update_apply] at hmj
    by_cases hj : j0 = j
    · rw [if_pos hj] at hmj
      exact absurd hmj (by simp)
    · rw [if_neg hj] at hmj
      obtain ⟨hk, hiff⟩ := I3 j0 k hmj
      exact ⟨hk, fun l => by rw [e1]; exact hiff l⟩
  · intro j0 hmj l
    rw [e3, Function.update_apply] at hmj
    by_cases hj : j0 = j
    · rw [e1]
      subst hj
      exact (hiffj l).mp l.isLt
    · rw [if_neg hj] at hmj
      rw [e1]
      exact I4 j0 hmj l
  · intro j0 k hmj
    rw [e3, Function.update_apply] at hmj
    by_cases hj : j0 = j
    · rw [if_pos hj] at hmj
      exact absurd hmj (by simp)
    · rw [if_neg hj] at hmj
      obtain ⟨hk, hiff⟩ := I5 j0 k hmj
      exact ⟨hk, fun l => by rw [e1]; exact hiff l⟩
  · intro j0 hmj l
    rw [e3, Function.update_apply] at hmj
    by_cases hj : j0 = j
    · rw [if_pos hj] at hmj
      exact absurd hmj (by simp)
    · rw [if_neg hj] at hmj
      rw [e1]
      exact I6 j0 hmj l

/-- Invariant preservation: a mutation task leaves its critical section
and starts the release loop. -/
theorem linv_mutExit {n m : Nat} {s s' : SysState n m}
    (hinv : LInv s) (j : Fin m) (hm : s.mphase j = MPhase.mutating)
    (e1 : s'.lockHeld = s.lockHeld) (e2 : s'.wphase = s.wphase)
    (e3 : s'.mphase = Function.update s.mphase j (MPhase.releasing 0)) :
    LInv s' := by
  obtain ⟨I1, I2, I3, I4, I5, I6⟩ := hinv
  refine ⟨?_, ?_, ?_, ?_, ?_, ?_⟩
  · intro i0
    rw [e1, e2]
    exact I1 i0
  · intro i0 i1
    rw [e1]
    exact I2 i0 i1
  · intro j0 k hmj
    rw [e3, Function.update_apply] at hmj
    by_cases hj : j0 = j
    · rw [if_pos hj] at hmj
      exact absurd hmj (by simp)
    · rw [if_neg hj] at hmj
      obtain ⟨hk, hiff⟩ := I3 j0 k hmj
      exact ⟨hk, fun l => by rw [e1]; exact hiff l⟩
  · intro j0 hmj l
    rw [e3, Function.update_apply] at hmj
    by_cases hj : j0 = j
    · rw [if_pos hj] at hmj
      exact absurd hmj (by simp)
    · rw [if_neg hj] at hmj
      rw [e1]
      exact I4 j0 hmj l
  · intro j0 k hmj
    rw [e3, Function.update_apply] at hmj
    by_cases hj : j0 = j
    · rw [if_pos hj] at hmj
      injection hmj with hk0
      subst hk0
      refine ⟨Nat.zero_le n, fun l => ?_⟩
      rw [e1]
      constructor
      · intro _
        subst hj
        exact I4 j0 hm l
      · intro _
        exact Nat.zero_le _
    · rw [if_neg hj] at hmj
      obtain ⟨hk, hiff⟩ := I5 j0 k hmj
      exact ⟨hk, fun l => by rw [e1]; exact hiff l⟩
  · intro j0 hmj l
    rw [e3, Function.update_apply] at hmj
    by_cases hj : j0 = j
    · rw [if_pos hj] at hmj
      exact absurd hmj (by simp)
    · rw [if_neg hj] at hmj
      rw [e1]
      exact I6 j0 hmj l

/-- Invariant preservation: a mutation task releases the next lock of its
release loop. -/
theorem linv_mutRelease {n m : Nat} {s s' : SysState n m}
    (hinv : LInv s) (j : Fin m) (k : Nat)
    (hm : s.mphase j = MPhase.releasing k) (hk : k < n)
    (e1 : s'.lockHeld = Function.update s.lockHeld ⟨k, hk⟩ none)
    (e2 : s'.wphase = s.wphase)
    (e3 : s'.mphase =
      Function.update s.mphase j (MPhase.releasing (k + 1))) :
    LInv s' := by
  obtain ⟨I1, I2, I3, I4, I5, I6⟩ := hinv
  obtain ⟨hkn, hiffj⟩ := I5 j k hm
  have hheld : s.lockHeld ⟨k, hk⟩ = some (LockActor.mutator j) :=
    (hiffj ⟨k, hk⟩).mp (le_refl k)
  refine ⟨?_, ?_, ?_, ?_, ?_, ?_⟩
  · intro i0
    rw [e1, e2, Function.update_apply]
    by_cases hi : i0 = ⟨k, hk⟩
    · rw [if_pos hi]
      constructor
      · intro hd
        exfalso
        have h2 := (I1 i0).mp hd
        rw [hi, hheld] at h2
        simp at h2
      · intro hsome
        exact Option.noConfusion hsome
    · rw [if_neg hi]
      exact I1 i0
  · intro i0 i1
    rw [e1, Function.update_apply]
    by_cases hi : i0 = ⟨k, hk⟩
    · rw [if_pos hi]
      intro hsome
      exact Option.noConfusion hsome
    · rw [if_neg hi]
      exact I2 i0 i1
  · intro j0 k0 hmj
    rw [e3, Function.update_apply] at hmj
    by_cases hj : j0 = j
    · rw [if_pos hj] at hmj
      exact absurd hmj (by simp)
    · rw [if_neg hj] at hmj
      obtain ⟨hk2, hiff2⟩ := I3 j0 k0 hmj
      refine ⟨hk2, fun l => ?_⟩
      rw [e1, Function.update_apply]
      by_cases hli : l = ⟨k, hk⟩
      · rw [if_pos hli]
        constructor
        · intro hlt
          exfalso
          have h2 := (hiff2 l).mp hlt
          rw [hli, hheld] at h2
          injection h2 with h3
          injection h3 with h4
          exact hj h4.symm
        · intro hsome
          exact absurd hsome (by simp)
      · rw [if_neg hli]
        exact hiff2 l
  · intro j0 hmj l
    rw [e3, Function.update_apply] at hmj
    by_cases hj : j0 = j
    · rw [if_pos hj] at hmj
      exact absurd hmj (by simp)
    · rw [if_neg hj] at hmj
      exfalso
      have h2 := I4 j0 hmj ⟨k, hk⟩
      rw [hheld] at h2
      injection h2 with h3
      injection h3 with h4
      exact hj h4.symm
  · intro j0 k0 hmj
    rw [e3, Function.update_apply] at hmj
    by_cases hj : j0 = j
    · rw [if_pos hj] at hmj
      injection hmj with hkeq
      subst hj
      refine ⟨by omega, fun l => ?_⟩
      rw [e1, Function.update_apply]
      by_cases hli : l = ⟨k, hk⟩
      · rw [if_pos hli]
        constructor
        · intro hle
          exfalso
          have hlv : l.val = k := by rw [hli]
          rw [← hkeq] at hle
          omega
        · intro hsome
          exact absurd hsome (by simp)
      · rw [if_neg hli]
        have hlv : l.val ≠ k := fun hh => hli (Fin.ext hh)
        rw [← hkeq]
        constructor
        · intro hle
          exact (hiffj l).mp (by omega)
        · intro hsome
          have h2 := (hiffj l).mpr hsome
          omega
    · rw [if_neg hj] at hmj
      obtain ⟨hk2, hiff2⟩ := I5 j0 k0 hmj
      refine ⟨hk2, fun l => ?_⟩
      rw [e1, Function.update_apply]
      by_cases hli : l = ⟨k, hk⟩
      · rw [if_pos hli]
        constructor
        · intro hle
          exfalso
          have h2 := (hiff2 l).mp hle
          rw [hli, hheld] at h2
          injection h2 with h3
          injection h3 with h4
          exact hj h4.symm
        · intro hsome
          exact absurd hsome (by simp)
      · rw [if_neg hli]
        exact hiff2 l
  · intro j0 hmj l
    rw [e3, Function.update_apply] at hmj
    by_cases hj : j0 = j
    · rw [if_pos hj] at hmj
      exact absurd hmj (by simp)
    · rw [if_neg hj] at hmj
      rw [e1, Function.update_apply]
      by_cases hli : l = ⟨k, hk⟩
      · rw [if_pos hli]
        simp
      · rw [if_neg hli]
        exact I6 j0 hmj l

/-- Invariant preservation: a mutation task finishes its release loop and
becomes idle. -/
theorem linv_mutDone {n m : Nat} {s s' : SysState n m}
    (hinv : LInv s) (j : Fin m) (hm : s.mphase j = MPhase.releasing n)
    (e1 : s'.lockHeld = s.lockHeld) (e2 : s'.wphase = s.wphase)
    (e3 : s'.mphase = Function.update s.mphase j MPhase.idle) :
    LInv s' := by
  obtain ⟨I1, I2, I3, I4, I5, I6⟩ := hinv
  obtain ⟨hkn, hiffj⟩ := I5 j n hm
  refine ⟨?_, ?_, ?_, ?_, ?_, ?_⟩
  · intro i0
    rw [e1, e2]
    exact I1 i0
  · intro i0 i1
    rw [e1]
    exact I2 i0 i1
  · intro j0 k hmj
    rw [e3, Function.update_apply] at hmj
    by_cases hj : j0 = j
    · rw [if_pos hj] at hmj
      exact absurd hmj (by simp)
    · rw [if_neg hj] at hmj
      obtain ⟨hk, hiff⟩ := I3 j0 k hmj
      exact ⟨hk, fun l => by rw [e1]; exact hiff l⟩
  · intro j0 hmj l
    rw [e3, Function.update_apply] at hmj
    by_cases hj : j0 = j
    · rw [if_pos hj] at hmj
      exact absurd hmj (by simp)
    · rw [if_neg hj] at hmj
      rw [e1]
      exact I4 j0 hmj l
  · intro j0 k hmj
    rw [e3, Function.update_apply] at hmj
    by_cases hj : j0 = j
    · rw [if_pos hj] at hmj
      exact absurd hmj (by simp)
    · rw [if_neg hj] at hmj
      obtain ⟨hk, hiff⟩ := I5 j0 k hmj
      exact ⟨hk, fun l => by rw [e1]; exact hiff l⟩
  · intro j0 hmj l
    rw [e3, Function.update_apply] at hmj
    by_cases hj : j0 = j
    · subst hj
      rw [e1]
      intro hsome
      have h2 := (hiffj l).mpr hsome
      have := l.isLt
      omega
    · rw [if_neg hj] at hmj
      rw [e1]
      exact I6 j0 hmj l

/-- The invariant is preserved by every step. -/
theorem linv_step {n m : Nat} {s s' : SysState n m}
    (hinv : LInv s) (hstep : LStep n m s s') : LInv s' := by
  cases hstep with
  | workerAcquire i hw hl e1 e2 e3 =>
    exact linv_workerAcquire hinv i hw hl e1 e2 e3
  | workerRelease i hw e1 e2 e3 =>
    exact linv_workerRelease hinv i hw e1 e2 e3
  | mutStart j hm e1 e2 e3 =>
    exact linv_mutStart hinv j hm e1 e2 e3
  | mutAcquire j k hm hk hl e1 e2 e3 =>
    exact linv_mutAcquire hinv j k hm hk hl e1 e2 e3
  | mutEnter j hm e1 e2 e3 =>
    exact linv_mutEnter hinv j hm e1 e2 e3
  | mutExit j hm e1 e2 e3 =>
    exact linv_mutExit hinv j hm e1 e2 e3
  | mutRelease j k hm hk e1 e2 e3 =>
    exact linv_mutRelease hinv j k hm hk e1 e2 e3
  | mutDone j hm e1 e2 e3 =>
    exact linv_mutDone hinv j hm e1 e2 e3

/-- The invariant holds in every reachable state. -/
theorem linv_reachable {n m : Nat} {s : SysState n m}
    (h : Reach n m s) : LInv s := by
  induction h with
  | init => exact linv_init n m
  | step hr hstep ih => exact linv_step ih hstep

/-- Claim C9 (confirmed): in the lock model of the dispatcher — each of
the three registry mutations acquires all N per-worker locks in index
order before mutating and releases them afterwards, while each worker
wraps dispatch in `async with` on its own lock only — in every reachable
state, a mutation task inside its critical section holds every worker
lock, and consequently no worker is mid-dispatch while any mutation is in
progress: no worker can ever observe a partially-updated handler group. -/
theorem mutation_excludes_dispatch (n m : Nat) (s : SysState n m)
    (hr : Reach n m s) (j : Fin m)
    (hm : s.mphase j = MPhase.mutating) :
    (∀ l : Fin n, s.lockHeld l = some (LockActor.mutator j))
    ∧ ∀ i : Fin n, s.wphase i ≠ WPhase.dispatching := by
  obtain ⟨I1, I2, I3, I4, I5, I6⟩ := linv_reachable hr
  refine ⟨I4 j hm, fun i hd => ?_⟩
  have h1 := (I1 i).mp hd
  have h2 := I4 j hm i
  rw [h1] at h2
  simp at h2

/-- The critical-section state of the 1-worker 1-mutator system is
reachable: start the acquire loop, take the single lock, enter. -/
theorem csState_reach : Reach 1 1 csState := by
  have hx : ∀ x : Fin 1, x = ⟨0, Nat.one_pos⟩ := by
    intro x
    exact Fin.ext (by omega)
  have s1 : LStep 1 1 (initState 1 1) csState1 := by
    refine LStep.mutStart _ _ ⟨0, Nat.one_pos⟩ rfl rfl rfl ?_
    funext x
    rw [hx x]
    simp [csState1, initState, Function.update]
  have s2 : LStep 1 1 csState1 csState2 := by
    refine LStep.mutAcquire _ _ ⟨0, Nat.one_pos⟩ 0 rfl Nat.one_pos rfl
      ?_ rfl ?_
    · funext x
      rw [hx x]
      simp [csState1, csState2, Function.update]
    · funext x
      rw [hx x]
      simp [csState1, csState2, Function.update]
  have s3 : LStep 1 1 csState2 csState := by
    refine LStep.mutEnter _ _ ⟨0, Nat.one_pos⟩ rfl rfl rfl ?_
    funext x
    rw [hx x]
    simp [csState2, csState, Function.update]
  exact Reach.step (Reach.step (Reach.step Reach.init s1) s2) s3

/-- Witness for C9 at a concrete input: in the reachable 1-worker
1-mutator state whose mutation task is mutating, the task holds the
worker's lock and the worker is not dispatching. -/
theorem mutation_excludes_dispatch_witness :
    csState.lockHeld ⟨0, Nat.one_pos⟩
        = some (LockActor.mutator ⟨0, Nat.one_pos⟩)
    ∧ csState.wphase ⟨0, Nat.one_pos⟩ ≠ WPhase.dispatching := by
  have h := mutation_excludes_dispatch 1 1 csState csState_reach
    ⟨0, Nat.one_pos⟩ rfl
  exact ⟨h.1 _, h.2 _⟩

/-- Claim C5 (confirmed): an event whose raw tag has no entry in the
classifier table classifies to `none` (the lookup is total and never
fails), the parsed object is `none`, and the event is delivered only to
raw-update handlers, each receiving the raw update and the two entity
maps; no other handler variant is invoked. -/
theorem unknown_tag_delivers_raw_only (st : DispatcherState)
    (n p u c : Nat) :
    classify (Tag.unknown n) = none
    ∧ ((dispatchEvent st (Tag.unknown n) p u c).all
        (rawOnly (Tag.unknown n) u c)) = true := by
  refine ⟨rfl, ?_⟩
  unfold dispatchEvent
  simp only [classify, Option.map_none']
  split
  · exact scanGroups_none_rawOnly st none (Tag.unknown n) u c st.groups 0
  · exact scanGroups_none_rawOnly st none (Tag.unknown n) u c st.groups 0
  · simp [List.all_append, rawOnly,
      scanGroups_none_rawOnly st none (Tag.unknown n) u c st.groups 0]

end Dispatcher
